import Mathlib

/-!
# lattice-app: port resolution, status poller and listener fork-join

A shallow embedding of `main.go`.

* Go strings are modelled as `List Char`; `os.Getenv` returns the empty string
  for an unset variable, so every environment variable and flag is a string
  argument and "unset" is `[]`.
* `strings.Replace`, `strings.Split`, `strconv.Itoa`, `fmt.Sprintf` and
  `json.Unmarshal` are library functions of the Go distribution; they are
  modelled here after their documented behaviour, on the inputs `main.go`
  gives them.
* `main` is modelled as an interleaving transition system over the shared
  variable `err`, the wait-group counter and the program points of the
  listener goroutines; each statement is one atomic step.
-/

namespace LatticeApp

/-- A Go string. -/
abbrev GoString := List Char

/-! ## Library functions: `strings` and `strconv` -/

/-- Go `strings.Replace(s, old, new, -1)` for a one-character `old`:
every occurrence of `old` is replaced by `new`. -/
def stringsReplace (s : GoString) (old : Char) (new : GoString) : GoString :=
  match s with
  | [] => []
  | c :: cs => if c = old then new ++ stringsReplace cs old new
               else c :: stringsReplace cs old new

/-- Go `strings.Split(s, sep)` for a one-character separator: the pieces of
`s` between the separators, in order; a string without separator gives the
one-element list `[s]`. -/
def stringsSplit (s : GoString) (sep : Char) : List GoString :=
  match s with
  | [] => [[]]
  | c :: cs =>
    if c = sep then [] :: stringsSplit cs sep
    else match stringsSplit cs sep with
      | [] => [[c]]
      | piece :: pieces => (c :: piece) :: pieces

/-- Go `strconv.Itoa`: the decimal rendering of an `int`. -/
def Itoa (i : Int) : GoString :=
  if i < 0 then '-' :: Nat.toDigits 10 i.natAbs else Nat.toDigits 10 i.natAbs

/-! ## Library function: `json.Unmarshal` into `[]PortMap` -/

/-- The parsed form of a JSON text. A number keeps its literal. -/
inductive JSON where
  | null : JSON
  | bool (b : Bool) : JSON
  | num (lit : GoString) : JSON
  | str (s : GoString) : JSON
  | arr (elems : List JSON) : JSON
  | obj (members : List (GoString × JSON)) : JSON
  deriving Repr

/-- JSON insignificant whitespace: space, tab, carriage return, line feed. -/
def isJSONSpace (c : Char) : Bool :=
  c = ' ' || c = '\t' || c = '\r' || c = '\n'

/-- Drop leading JSON whitespace. -/
def skipSpace : GoString → GoString
  | [] => []
  | c :: cs => if isJSONSpace c then skipSpace cs else c :: cs

/-- Value of a hexadecimal digit. -/
def hexVal (c : Char) : Option Nat :=
  if '0' ≤ c ∧ c ≤ '9' then some (c.toNat - '0'.toNat)
  else if 'a' ≤ c ∧ c ≤ 'f' then some (c.toNat - 'a'.toNat + 10)
  else if 'A' ≤ c ∧ c ≤ 'F' then some (c.toNat - 'A'.toNat + 10)
  else none

/-- The four hexadecimal digits of a `\u` escape as a UTF-16 code unit. -/
def hex4 (a b c d : Char) : Option Nat :=
  match hexVal a, hexVal b, hexVal c, hexVal d with
  | some x, some y, some z, some w => some (((x * 16 + y) * 16 + z) * 16 + w)
  | _, _, _, _ => none

/-- One unit of a string literal: a character written as such or by a simple
escape, or the code unit of a `\u` escape. -/
inductive StrUnit where
  | chr (c : Char) : StrUnit
  | esc (u : Nat) : StrUnit

/-- The character a simple escape stands for. -/
def simpleEscape (e : Char) : Option Char :=
  if e = '"' then some '"' else if e = '\\' then some '\\'
  else if e = '/' then some '/' else if e = 'b' then some (Char.ofNat 8)
  else if e = 'f' then some (Char.ofNat 12) else if e = 'n' then some '\n'
  else if e = 'r' then some '\r' else if e = 't' then some '\t'
  else none

/-- Scan the body of a string literal, after the opening quote, up to and
including the closing quote. Control characters and unknown escapes are
syntax errors. -/
def scanString : GoString → Option (List StrUnit × GoString)
  | [] => none
  | c :: rest =>
    if c = '"' then some ([], rest)
    else if c = '\\' then
      match rest with
      | [] => none
      | e :: rest1 =>
        if e = 'u' then
          match rest1 with
          | a :: b :: c :: d :: rest2 =>
            match hex4 a b c d, scanString rest2 with
            | some u, some (us, out) => some (StrUnit.esc u :: us, out)
            | _, _ => none
          | _ => none
        else
          match simpleEscape e, scanString rest1 with
          | some x, some (us, out) => some (StrUnit.chr x :: us, out)
          | _, _ => none
    else if c.toNat < 32 then none
    else
      match scanString rest with
      | some (us, out) => some (StrUnit.chr c :: us, out)
      | none => none

/-- Is the code unit a UTF-16 surrogate. -/
def isSurrogate (u : Nat) : Bool := 0xD800 ≤ u && u < 0xE000

/-- The character a high surrogate `u` encodes together with the unit that
follows it, when that is a `\u` escape of a low surrogate. -/
def surrogatePair (u : Nat) : List StrUnit → Option Char
  | StrUnit.esc v :: _ =>
    if u < 0xDC00 ∧ 0xDC00 ≤ v ∧ v < 0xE000 then
      some (Char.ofNat ((u - 0xD800) * 1024 + (v - 0xDC00) + 0x10000))
    else none
  | _ => none

/-- Unquote the units of a string literal; the flag says that the next unit
is the low half of a surrogate pair already consumed. -/
def unquoteFrom : Bool → List StrUnit → GoString
  | _, [] => []
  | true, _ :: us => unquoteFrom false us
  | false, StrUnit.chr c :: us => c :: unquoteFrom false us
  | false, StrUnit.esc u :: us =>
    if isSurrogate u then
      match surrogatePair u us with
      | some c => c :: unquoteFrom true us
      | none => Char.ofNat 0xFFFD :: unquoteFrom false us
    else Char.ofNat u :: unquoteFrom false us

/-- The unquoted string: a high surrogate followed by a low one is the
supplementary character they encode, any other surrogate is U+FFFD. -/
def unquote (us : List StrUnit) : GoString := unquoteFrom false us

/-- The leading decimal digits of a string and the rest. -/
def spanDigits : GoString → GoString × GoString
  | [] => ([], [])
  | c :: cs =>
    if c.isDigit then ((spanDigits cs).1.cons c, (spanDigits cs).2) else ([], c :: cs)

/-- The integer part of a number literal: `0 | [1-9][0-9]*`. -/
def scanInt (s : GoString) : Option (GoString × GoString) :=
  match s with
  | [] => none
  | c :: t =>
    if c = '0' then some (['0'], t)
    else if c.isDigit then some (spanDigits (c :: t))
    else none

/-- The optional fraction of a number literal: `(. [0-9]+)?`. -/
def scanFrac (s : GoString) : Option (GoString × GoString) :=
  match s with
  | [] => some ([], [])
  | c :: t =>
    if c = '.' then
      (if (spanDigits t).1 = [] then none
       else some ('.' :: (spanDigits t).1, (spanDigits t).2))
    else some ([], c :: t)

/-- The optional exponent of a number literal: `([eE] [+-]? [0-9]+)?`. -/
def scanExp (s : GoString) : Option (GoString × GoString) :=
  match s with
  | [] => some ([], [])
  | e :: t =>
    if e = 'e' ∨ e = 'E' then
      let signed : GoString × GoString :=
        match t with
        | [] => ([], [])
        | x :: u => if x = '+' ∨ x = '-' then ([x], u) else ([], x :: u)
      if (spanDigits signed.2).1 = [] then none
      else some (e :: signed.1 ++ (spanDigits signed.2).1, (spanDigits signed.2).2)
    else some ([], e :: t)

/-- Scan a number literal: `-? (0 | [1-9][0-9]*) (. [0-9]+)? ([eE] [+-]? [0-9]+)?`. -/
def scanNumber (s : GoString) : Option (GoString × GoString) :=
  match s with
  | [] => none
  | c :: t =>
    let sign : GoString := if c = '-' then ['-'] else []
    match scanInt (if c = '-' then t else c :: t) with
    | none => none
    | some (ds, s2) =>
      match scanFrac s2 with
      | none => none
      | some (fs, s3) =>
        match scanExp s3 with
        | none => none
        | some (es, s4) => some (sign ++ ds ++ fs ++ es, s4)

/-- Strip a keyword from the front of a string. -/
def stripKeyword (kw s : GoString) : Option GoString :=
  if kw.isPrefixOf s then some (s.drop kw.length) else none

/-- Parse a value that is not an array or an object and starts with the
character `c`: a string, `true`, `false`, `null` or a number. -/
def parseScalar (c : Char) (rest : GoString) : Option (JSON × GoString) :=
  if c = '"' then
    match scanString rest with
    | some (us, out) => some (JSON.str (unquote us), out)
    | none => none
  else if c = 't' then
    (stripKeyword "true".toList (c :: rest)).map (fun out => (JSON.bool true, out))
  else if c = 'f' then
    (stripKeyword "false".toList (c :: rest)).map (fun out => (JSON.bool false, out))
  else if c = 'n' then
    (stripKeyword "null".toList (c :: rest)).map (fun out => (JSON.null, out))
  else
    match scanNumber (c :: rest) with
    | some (lit, out) => some (JSON.num lit, out)
    | none => none

/-- The elements of an array after the first `[`, given the parser of one
value: `value (, value)* ]`. The fuel bounds the number of elements. -/
def parseElems (value : GoString → Option (JSON × GoString)) :
    Nat → GoString → Option (List JSON × GoString)
  | 0, _ => none
  | fuel + 1, s =>
    match value s with
    | none => none
    | some (v, s1) =>
      match skipSpace s1 with
      | [] => none
      | c :: s2 =>
        if c = ',' then
          match parseElems value fuel s2 with
          | some (vs, out) => some (v :: vs, out)
          | none => none
        else if c = ']' then some ([v], s2)
        else none

/-- The members of an object after the first `{`, given the parser of one
value: `string : value (, string : value)* }`. The fuel bounds the number of
members. -/
def parseMembers (value : GoString → Option (JSON × GoString)) :
    Nat → GoString → Option (List (GoString × JSON) × GoString)
  | 0, _ => none
  | fuel + 1, s =>
    match skipSpace s with
    | [] => none
    | q :: s1 =>
      if q = '"' then
        match scanString s1 with
        | none => none
        | some (key, s2) =>
          match skipSpace s2 with
          | [] => none
          | colon :: s3 =>
            if colon = ':' then
              match value s3 with
              | none => none
              | some (v, s4) =>
                match skipSpace s4 with
                | [] => none
                | c :: s5 =>
                  if c = ',' then
                    match parseMembers value fuel s5 with
                    | some (ms, out) => some ((unquote key, v) :: ms, out)
                    | none => none
                  else if c = '}' then some ([(unquote key, v)], s5)
                  else none
            else none
      else none

/-- The nesting depth `encoding/json` accepts (since Go 1.15): a text with
more arrays and objects open at once is a syntax error. -/
def maxNestingDepth : Nat := 10000

/-- Parse one JSON value, leading whitespace allowed, and return the rest of
the input; `depth` is the number of arrays and objects that may still be
opened. An array or object has fewer elements than the text that follows its
opening bracket has characters, which is the fuel given for them. -/
def parseValue : Nat → GoString → Option (JSON × GoString)
  | 0, s =>
    match skipSpace s with
    | [] => none
    | c :: rest =>
      if c = '{' ∨ c = '[' then none else parseScalar c rest
  | depth + 1, s =>
    match skipSpace s with
    | [] => none
    | c :: rest =>
      if c = '{' then
        match skipSpace rest with
        | [] => none
        | close :: out =>
          if close = '}' then some (JSON.obj [], out)
          else
            match parseMembers (parseValue depth) rest.length rest with
            | some (ms, out1) => some (JSON.obj ms, out1)
            | none => none
      else if c = '[' then
        match skipSpace rest with
        | [] => none
        | close :: out =>
          if close = ']' then some (JSON.arr [], out)
          else
            match parseElems (parseValue depth) rest.length rest with
            | some (vs, out1) => some (JSON.arr vs, out1)
            | none => none
      else parseScalar c rest

/-- Parse a whole JSON text: one value with optional surrounding whitespace
and nothing else. `none` is a syntax error. -/
def parseJSON (s : GoString) : Option JSON :=
  match parseValue maxNestingDepth s with
  | some (v, rest) => if skipSpace rest = [] then some v else none
  | none => none

/-- The value of a string of decimal digits, continuing from `acc`; `none`
when a character is not a digit. -/
def digitsValue : GoString → Nat → Option Nat
  | [], acc => some acc
  | c :: cs, acc =>
    if c.isDigit then digitsValue cs (acc * 10 + (c.toNat - '0'.toNat)) else none

/-- Go `strconv.ParseInt(s, 10, 64)`: an optional sign and at least one
decimal digit, the value within the range of a 64-bit `int`. -/
def ParseInt (s : GoString) : Option Int :=
  match s with
  | [] => none
  | c :: t =>
    let ds := if c = '-' ∨ c = '+' then t else c :: t
    if ds = [] then none
    else
      match digitsValue ds 0 with
      | none => none
      | some n =>
        if c = '-' then (if n ≤ 2 ^ 63 then some (-(n : Int)) else none)
        else (if n < 2 ^ 63 then some (n : Int) else none)

/-- The struct `PortMap` with its two `int` fields. -/
structure PortMap where
  External : Int
  Internal : Int
  deriving DecidableEq, Repr

/-- The fields of `PortMap`. -/
inductive Field where
  | External : Field
  | Internal : Field
  deriving DecidableEq, Repr

/-- The field an object key is stored in: the field of that name, letter case
ignored; `none` for any other key. -/
def findField (key : GoString) : Option Field :=
  if key.map Char.toUpper = "EXTERNAL".toList then some Field.External
  else if key.map Char.toUpper = "INTERNAL".toList then some Field.Internal
  else none

/-- Store a JSON value in an `int` field holding `old`: a number literal that
`ParseInt` accepts is stored, `null` leaves the field as it is, and anything
else leaves the field as it is and records a type error (`true`). -/
def storeInt (old : Int) : JSON → Int × Bool
  | JSON.num lit =>
    match ParseInt lit with
    | some n => (n, false)
    | none => (old, true)
  | JSON.null => (old, false)
  | _ => (old, true)

/-- Store one member of an object in a `PortMap`; a key that names no field
is skipped. -/
def storeMember (acc : PortMap × Bool) (member : GoString × JSON) : PortMap × Bool :=
  match findField member.1 with
  | some Field.External =>
    ({ acc.1 with External := (storeInt acc.1.External member.2).1 },
      acc.2 || (storeInt acc.1.External member.2).2)
  | some Field.Internal =>
    ({ acc.1 with Internal := (storeInt acc.1.Internal member.2).1 },
      acc.2 || (storeInt acc.1.Internal member.2).2)
  | none => acc

/-- Decode one array element into a fresh `PortMap`: the members of an object
are stored in order, `null` leaves the zero value, and anything else leaves
the zero value and records a type error. -/
def decodePortMap : JSON → PortMap × Bool
  | JSON.obj members => members.foldl storeMember (⟨0, 0⟩, false)
  | JSON.null => (⟨0, 0⟩, false)
  | _ => (⟨0, 0⟩, true)

/-- Go `json.Unmarshal(data, &portMaps)` for `portMaps := []PortMap{}`: the
slice after the call and whether an error is returned. The text is checked
first, and a syntax error leaves the slice empty. A valid text is decoded as
far as possible ("if a JSON value is not appropriate for a given target type
... Unmarshal skips that field and completes the unmarshaling as best it can
... [and] returns an UnmarshalTypeError describing the earliest such error"):
an array gives one element per array element, type errors included; `null`
and every other value give the empty slice. -/
def jsonUnmarshal (data : GoString) : List PortMap × Bool :=
  match parseJSON data with
  | none => ([], true)
  | some (JSON.arr elems) =>
    (elems.map (fun v => (decodePortMap v).1), elems.any (fun v => (decodePortMap v).2))
  | some JSON.null => ([], false)
  | some _ => ([], true)

/-! ## `main.go`: port resolution -/

/-- Function `getCfInstancePorts`, given the value of `CF_INSTANCE_PORTS`: the error of
`json.Unmarshal` is dropped and every decoded mapping gives its internal
port. -/
def getCfInstancePorts (cfInstancePortsEnv : GoString) : List GoString :=
  let givenPorts := cfInstancePortsEnv
  if givenPorts = [] then []
  else
    let portMaps := (jsonUnmarshal givenPorts).1
    portMaps.map (fun portMap => Itoa portMap.Internal)

/-- Function `getServerPorts`, given the value of `CF_INSTANCE_PORTS`, of the `--ports`
flag and of `PORT`. -/
def getServerPorts (cfInstancePortsEnv portsFlag portEnv : GoString) : List GoString :=
  let cfInstancePorts := getCfInstancePorts cfInstancePortsEnv
  if cfInstancePorts.length > 0 then cfInstancePorts
  else
    let givenPorts := portsFlag
    let givenPorts := if givenPorts = [] then portEnv else givenPorts
    let givenPorts := if givenPorts = [] then "8080".toList else givenPorts
    let ports := stringsReplace givenPorts ' ' []
    stringsSplit ports ','

/-- Function `fetchAppName`, given the value of `APP_NAME`. -/
def fetchAppName (appNameEnv : GoString) : GoString :=
  let appName := appNameEnv
  if appName = [] then "Lattice-app".toList else appName

/-! ## `main.go`: the status poller -/

/-- An operand of `fmt.Sprintf`. -/
inductive Arg where
  | str (s : GoString) : Arg
  | int (i : Int) : Arg

/-- Go `fmt.Sprintf` for the verbs `%s` on a string and `%d` on an `int`: the
format is copied and each verb is replaced by its operand, taken in order.
An operand is never scanned for verbs. -/
def Sprintf : GoString → List Arg → GoString
  | [], _ => []
  | [c], _ => [c]
  | c :: d :: rest, args =>
    if c = '%' then
      match d, args with
      | 's', Arg.str x :: args1 => x ++ Sprintf rest args1
      | 'd', Arg.int i :: args1 => Itoa i ++ Sprintf rest args1
      | _, _ => c :: Sprintf (d :: rest) args
    else c :: Sprintf (d :: rest) args

/-- What the process writes: a record handed to the logger, or text on the
standard output or the standard error stream. -/
inductive Output where
  | info (action : GoString) (data : List (GoString × GoString)) : Output
  | error (action : GoString) (err : GoString) (data : List (GoString × GoString)) : Output
  | stdout (text : GoString) : Output
  | stderr (text : GoString) : Output
  deriving DecidableEq, Repr

/-- The body of the poller loop after `<-t.C`, reading the variables `err`,
`appName`, `message` and `index` of `main`. A Go `error` is `none` for `nil`
and `some` of its `Error()` text otherwise. -/
def pollerTick (err : Option GoString) (appName message : GoString) (index : Int) : Output :=
  match err with
  | some e => Output.stderr (Sprintf "Failed to fetch index: %s\n".toList [Arg.str e])
  | none =>
    Output.stdout
      (Sprintf "%s. Says %s. on index: %d".toList [Arg.str appName, Arg.str message, Arg.int index]
        ++ ['\n'])

/-! ## `main.go`: the goroutines of `main` -/

/-- The statement a listener goroutine executes next. -/
inductive Pc where
  /-- The statements `server := ifrit.Envoke(...)` and `logger.Info("lattice-app.up", ...)`. -/
  | start : Pc
  /-- The statement `err = <-server.Wait()`. -/
  | wait : Pc
  /-- The statement `if err != nil { logger.Error("shutting down server", err, ...) }`. -/
  | check : Pc
  /-- The statement `logger.Info("shutting down server", ...)`. -/
  | logDown : Pc
  /-- The deferred `wg.Done()`. -/
  | exit : Pc
  /-- The goroutine has returned. -/
  | done : Pc
  deriving DecidableEq, Repr

/-- A listener goroutine: its `port` argument, its program point and the
terminal result its server delivered, once received. -/
structure Listener where
  port : GoString
  pc : Pc
  result : Option (Option GoString)
  deriving DecidableEq, Repr

/-- The state of `main` from the start of the poller goroutine on. `err`,
`index`, `appName` and `message` are the variables the poller closure reads;
`err` is also the variable the listener closures assign. -/
structure State where
  err : Option GoString
  index : Int
  appName : GoString
  message : GoString
  ports : List GoString
  /-- Position of the `for _, port := range ports` loop. -/
  next : Nat
  /-- Counter of the `sync.WaitGroup`. -/
  wg : Int
  listeners : List Listener
  /-- Whether `wg.Wait()` has returned and the last line is logged. -/
  finished : Bool
  out : List Output
  deriving DecidableEq, Repr

/-- The state when the poller goroutine has been started: `index, err` are
the results of the one call of `helpers.FetchIndex()`. -/
def initState (ports : List GoString) (appName message : GoString)
    (index : Int) (err : Option GoString) : State :=
  { err := err, index := index, appName := appName, message := message,
    ports := ports, next := 0, wg := 0, listeners := [], finished := false, out := [] }

/-- One atomic action of one goroutine. -/
inductive Event where
  /-- In main, one iteration of the loop: `wg.Add(1)` and the `go` statement. -/
  | spawn : Event
  /-- In main, `wg.Wait()` returns and `logger.Info("shutting latice app")` runs. -/
  | join : Event
  /-- In the poller, one tick. -/
  | tick : Event
  /-- In listener `i`, its next statement; `result` is what `<-server.Wait()`
  delivers when that statement is the receive. -/
  | listener (i : Nat) (result : Option GoString) : Event
  deriving DecidableEq, Repr

/-- The next statement of a listener goroutine, on the shared state. Every
statement is one atomic step: the assignment to the shared `err` and the test
of it are taken as indivisible accesses, and the goroutines interleave
between statements. Go promises this for no unsynchronised access: a read
that races with the assignment may see a half-written interface value and
panic, which ends the process; such a crash is not a step of this model, so
what is proved of all runs below is proved of the runs without it. -/
def stepListener (s : State) (i : Nat) (l : Listener) (result : Option GoString) :
    Option State :=
  match l.pc with
  | Pc.start =>
    some { s with
      listeners := s.listeners.set i { l with pc := Pc.wait },
      out := s.out ++ [Output.info "lattice-app.up".toList [("port".toList, l.port)]] }
  | Pc.wait =>
    some { s with
      err := result,
      listeners := s.listeners.set i { l with pc := Pc.check, result := some result } }
  | Pc.check =>
    some { s with
      listeners := s.listeners.set i { l with pc := Pc.logDown },
      out := match s.err with
        | some e =>
          s.out ++ [Output.error "shutting down server".toList e [("server port".toList, l.port)]]
        | none => s.out }
  | Pc.logDown =>
    some { s with
      listeners := s.listeners.set i { l with pc := Pc.exit },
      out := s.out ++ [Output.info "shutting down server".toList [("server port".toList, l.port)]] }
  | Pc.exit =>
    some { s with
      wg := s.wg - 1,
      listeners := s.listeners.set i { l with pc := Pc.done } }
  | Pc.done => none

/-- One step of the process; `none` when the action is not enabled. Nothing
runs once `main` has returned. -/
def step (s : State) (e : Event) : Option State :=
  if s.finished then none
  else
    match e with
    | Event.spawn =>
      match s.ports.get? s.next with
      | some port =>
        some { s with
          next := s.next + 1,
          wg := s.wg + 1,
          listeners := s.listeners ++ [{ port := port, pc := Pc.start, result := none }] }
      | none => none
    | Event.join =>
      if s.next = s.ports.length ∧ s.wg = 0 then
        some { s with
          finished := true,
          out := s.out ++ [Output.info "shutting latice app".toList []] }
      else none
    | Event.tick =>
      some { s with out := s.out ++ [pollerTick s.err s.appName s.message s.index] }
    | Event.listener i result =>
      match s.listeners.get? i with
      | some l => stepListener s i l result
      | none => none

/-- Run a schedule of actions; `none` when one of them is not enabled. -/
def run (s : State) : List Event → Option State
  | [] => some s
  | e :: es =>
    match step s e with
    | some s1 => run s1 es
    | none => none

/-! ## Invariants of the transition system -/

/-- What a step leaves alone: the name, the message, the index and the port
list are never assigned. -/
def sameConfig (s t : State) : Prop :=
  t.appName = s.appName ∧ t.message = s.message ∧ t.index = s.index ∧ t.ports = s.ports

/-- The number of listener goroutines that have not returned. -/
def active (ls : List Listener) : Nat :=
  match ls with
  | [] => 0
  | l :: rest => (if l.pc = Pc.done then 0 else 1) + active rest

/-- The fork-join invariant of `main`: the goroutines started so far are those
of the first `next` ports, in order; the wait-group counter is the number of
goroutines that have not returned; a goroutine past its receive holds the
terminal result of its server; and `main` is past `wg.Wait()` only when the
loop is over and the counter is zero. -/
def ForkJoin (s : State) : Prop :=
  s.listeners.map Listener.port = s.ports.take s.next ∧
  s.next ≤ s.ports.length ∧
  s.wg = (active s.listeners : Int) ∧
  (∀ l ∈ s.listeners, l.pc ≠ Pc.start → l.pc ≠ Pc.wait → l.result ≠ none) ∧
  (s.finished = true → s.next = s.ports.length ∧ s.wg = 0)

/-! ## The specification's words -/

/-- The specification's "strips all whitespace": space, tab, line feed and
carriage return are removed. -/
def specStripWhitespace (s : GoString) : GoString :=
  s.filter (fun c => !(c = ' ' || c = '\t' || c = '\n' || c = '\r'))

/-- The specification's resolution of a raw comma-delimited string: strip all
whitespace, then split on commas. -/
def specResolveRaw (s : GoString) : List GoString :=
  stringsSplit (specStripWhitespace s) ','

/-- The specification's "parses as a positive integer". -/
def parsesPositive (s : GoString) : Prop :=
  ∃ n : Int, ParseInt s = some n ∧ 0 < n

/-- The specification's status line for name `n`, message `m` and index `i`. -/
def specStatusLine (n m : GoString) (i : Int) : GoString :=
  n ++ ". Says ".toList ++ m ++ ". on index: ".toList ++ Itoa i

/-- JSON whitespace, as the JSON grammar lists it: any number of spaces,
tabs, carriage returns and line feeds. -/
def isSpaces (w : GoString) : Prop :=
  ∀ c ∈ w, c = ' ' ∨ c = '\t' ∨ c = '\r' ∨ c = '\n'

/-- The values of a Go `int`. -/
def isInt64 (i : Int) : Prop := -(2 : Int) ^ 63 ≤ i ∧ i < (2 : Int) ^ 63

/-- The whitespace around the parts of one member of a JSON object. -/
structure Spacing where
  beforeKey : GoString
  afterKey : GoString
  afterColon : GoString
  afterValue : GoString

/-- All four parts are JSON whitespace. -/
def Spacing.ok (sp : Spacing) : Prop :=
  isSpaces sp.beforeKey ∧ isSpaces sp.afterKey ∧ isSpaces sp.afterColon ∧
  isSpaces sp.afterValue

/-- The text of the object member `"key": value` for an integer value written
in decimal, with the given whitespace. -/
def memberText (sp : Spacing) (key : GoString) (value : Int) : GoString :=
  sp.beforeKey ++ '"' :: (key ++ '"' :: (sp.afterKey ++ ':' ::
    (sp.afterColon ++ (Itoa value ++ sp.afterValue))))

/-- The specification's `{External:int, Internal:int}` object for the mapping
`m`, as a text: an opening brace, the two members in either order separated by
a comma, a closing brace, with any JSON whitespace around every part. -/
def isPortMapText (el : GoString) (m : PortMap) : Prop :=
  isInt64 m.External ∧ isInt64 m.Internal ∧
  ∃ (a z : GoString) (s1 s2 : Spacing), isSpaces a ∧ isSpaces z ∧ s1.ok ∧ s2.ok ∧
    (el = a ++ '{' :: (memberText s1 "External".toList m.External ++ ',' ::
        (memberText s2 "Internal".toList m.Internal ++ '}' :: z)) ∨
     el = a ++ '{' :: (memberText s1 "Internal".toList m.Internal ++ ',' ::
        (memberText s2 "External".toList m.External ++ '}' :: z)))

/-- The specification's well-formed value of `CF_INSTANCE_PORTS` for the
mappings `ms`, as a text: an opening bracket, one such object per mapping in
order, separated by commas, a closing bracket, with any JSON whitespace before
and after. -/
def wellFormedPorts (cf : GoString) (ms : List PortMap) : Prop :=
  ∃ (a z : GoString) (els : List GoString), isSpaces a ∧ isSpaces z ∧
    List.Forall₂ isPortMapText els ms ∧
    cf = a ++ '[' :: ([','].intercalate els ++ ']' :: z)

/-- The parsed form of such an object: exactly the two members, in either
order, with number literals that `ParseInt` reads as `m.External` and
`m.Internal`. -/
def isPortMapObject (v : JSON) (m : PortMap) : Prop :=
  ∃ le li : GoString,
    (v = JSON.obj [("External".toList, JSON.num le), ("Internal".toList, JSON.num li)] ∨
     v = JSON.obj [("Internal".toList, JSON.num li), ("External".toList, JSON.num le)]) ∧
    ParseInt le = some m.External ∧ ParseInt li = some m.Internal

/-- A text that cannot continue a number literal: it starts with a character
that is no digit, no point and no exponent mark. -/
def endsNumber (rest : GoString) : Prop :=
  ∃ t r, rest = t :: r ∧ t.isDigit = false ∧ t ≠ '.' ∧ t ≠ 'e' ∧ t ≠ 'E'

/-! # Theorems -/

/-! ## `strings.Replace` and `strings.Split` -/

theorem stringsReplace_nil_eq_filter (s : GoString) (old : Char) :
    stringsReplace s old [] = s.filter (fun c => !(c = old)) := by
  induction s with
  | nil => rfl
  | cons c cs ih =>
    by_cases h : c = old
    · simp [stringsReplace, h, ih]
    · simp [stringsReplace, h, ih]

theorem stringsSplit_ne_nil (s : GoString) (sep : Char) : stringsSplit s sep ≠ [] := by
  cases s with
  | nil => simp [stringsSplit]
  | cons c cs =>
    unfold stringsSplit
    split
    · simp
    · split <;> simp

theorem stringsSplit_cons_sep (cs : GoString) (sep : Char) :
    stringsSplit (sep :: cs) sep = [] :: stringsSplit cs sep := by
  simp [stringsSplit]

theorem stringsSplit_cons_other (c : Char) (cs : GoString) (sep : Char) (h : c ≠ sep) :
    ∃ piece pieces, stringsSplit cs sep = piece :: pieces ∧
      stringsSplit (c :: cs) sep = (c :: piece) :: pieces := by
  cases hs : stringsSplit cs sep with
  | nil => exact absurd hs (stringsSplit_ne_nil cs sep)
  | cons piece pieces =>
    refine ⟨piece, pieces, rfl, ?_⟩
    simp [stringsSplit, h, hs]

/-- Joining the pieces with the separator gives the string back. -/
theorem intercalate_stringsSplit (s : GoString) (sep : Char) :
    [sep].intercalate (stringsSplit s sep) = s := by
  induction s with
  | nil => simp [stringsSplit, List.intercalate]
  | cons c cs ih =>
    by_cases h : c = sep
    · subst h
      rw [stringsSplit_cons_sep]
      cases hs : stringsSplit cs c with
      | nil => exact absurd hs (stringsSplit_ne_nil cs c)
      | cons piece pieces =>
        rw [hs] at ih
        simp only [List.intercalate, List.intersperse, List.flatten] at ih ⊢
        simp [ih]
    · obtain ⟨piece, pieces, hs, hc⟩ := stringsSplit_cons_other c cs sep h
      rw [hc]
      rw [hs] at ih
      cases pieces with
      | nil =>
        simp only [List.intercalate, List.intersperse, List.flatten] at ih ⊢
        simp at ih ⊢
        exact ih
      | cons q qs =>
        simp only [List.intercalate, List.intersperse, List.flatten] at ih ⊢
        simp at ih ⊢
        exact ih

/-- No piece contains the separator, and every character of a piece is a
character of the string. -/
theorem mem_stringsSplit (s : GoString) (sep : Char) :
    ∀ piece ∈ stringsSplit s sep, sep ∉ piece ∧ ∀ c ∈ piece, c ∈ s := by
  induction s with
  | nil => simp [stringsSplit]
  | cons c cs ih =>
    by_cases h : c = sep
    · subst h
      rw [stringsSplit_cons_sep]
      intro piece hp
      rcases List.mem_cons.1 hp with rfl | hp
      · simp
      · exact ⟨(ih piece hp).1, fun d hd => List.mem_cons_of_mem _ ((ih piece hp).2 d hd)⟩
    · obtain ⟨p, ps, hs, hc⟩ := stringsSplit_cons_other c cs sep h
      rw [hc]
      rw [hs] at ih
      intro piece hp
      rcases List.mem_cons.1 hp with rfl | hp
      · have hp0 := ih p (List.mem_cons_self _ _)
        refine ⟨?_, ?_⟩
        · intro hmem
          rcases List.mem_cons.1 hmem with e | e
          · exact h e.symm
          · exact hp0.1 e
        · intro d hd
          rcases List.mem_cons.1 hd with e | e
          · exact e ▸ List.mem_cons_self _ _
          · exact List.mem_cons_of_mem _ (hp0.2 d e)
      · have hp0 := ih piece (List.mem_cons_of_mem _ hp)
        exact ⟨hp0.1, fun d hd => List.mem_cons_of_mem _ (hp0.2 d hd)⟩

/-! ## Port resolution from the raw comma-delimited sources -/

theorem getCfInstancePorts_unset : getCfInstancePorts [] = [] := by
  simp [getCfInstancePorts]

/-- Without decoded mappings the result is the comma split of the selected
raw string with its space characters removed. -/
theorem getServerPorts_of_no_mappings (cf flag port : GoString)
    (hcf : getCfInstancePorts cf = []) :
    getServerPorts cf flag port =
      stringsSplit
        ((if flag = [] then (if port = [] then "8080".toList else port) else flag).filter
          (fun c => !(c = ' '))) ',' := by
  unfold getServerPorts
  simp only [hcf, List.length_nil, gt_iff_lt, lt_self_iff_false, if_false]
  rw [stringsReplace_nil_eq_filter]
  by_cases hf : flag = []
  · by_cases hp : port = []
    · simp [hf, hp]
    · simp [hf, hp]
  · simp [hf]

/-- With decoded mappings the result is their list of internal ports. -/
theorem getServerPorts_of_mappings (cf flag port : GoString)
    (hcf : getCfInstancePorts cf ≠ []) :
    getServerPorts cf flag port = getCfInstancePorts cf := by
  unfold getServerPorts
  have h : (getCfInstancePorts cf).length > 0 := List.length_pos.2 hcf
  simp only [h, if_true]

theorem specStripWhitespace_eq_filter_space (s : GoString)
    (h : ∀ c ∈ s, c ≠ '\t' ∧ c ≠ '\n' ∧ c ≠ '\r') :
    specStripWhitespace s = s.filter (fun c => !(c = ' ')) := by
  unfold specStripWhitespace
  apply List.filter_congr
  intro c hc
  obtain ⟨h1, h2, h3⟩ := h c hc
  simp [h1, h2, h3]

/-- C6: for every value of CF_INSTANCE_PORTS, of the --ports flag and of PORT,
the list returned by getServerPorts is non-empty. -/
theorem getServerPorts_nonempty (cf flag port : GoString) :
    getServerPorts cf flag port ≠ [] ∧ 0 < (getServerPorts cf flag port).length := by
  have h : getServerPorts cf flag port ≠ [] := by
    by_cases hcf : getCfInstancePorts cf = []
    · rw [getServerPorts_of_no_mappings cf flag port hcf]
      exact stringsSplit_ne_nil _ _
    · rw [getServerPorts_of_mappings cf flag port hcf]
      exact hcf
  exact ⟨h, List.length_pos.2 h⟩

/-- C3, as stated, fails: with CF_INSTANCE_PORTS unset and the flag
"3000,<tab>4000" the second port keeps its tab, while stripping all
whitespace before the split gives "3000" and "4000". -/
theorem flag_tab_not_stripped :
    "3000,\t4000".toList ≠ [] ∧
    getServerPorts [] "3000,\t4000".toList "5000".toList = ["3000".toList, "\t4000".toList] ∧
    specResolveRaw "3000,\t4000".toList = ["3000".toList, "4000".toList] ∧
    getServerPorts [] "3000,\t4000".toList "5000".toList ≠ specResolveRaw "3000,\t4000".toList := by
  decide

/-- C3, amended: when CF_INSTANCE_PORTS is unset or empty and the --ports flag
is a non-empty string, then for every PORT value getServerPorts returns the
flag with its space characters (U+0020) removed, split on commas, in the order
written: joining the result with commas gives the flag without its spaces back
and no port contains a comma. When the flag has no tab, line feed or carriage
return this is the flag with all whitespace stripped, split on commas. -/
theorem getServerPorts_flag (flag port : GoString) (hflag : flag ≠ []) :
    getServerPorts [] flag port = stringsSplit (flag.filter (fun c => !(c = ' '))) ',' ∧
    [','].intercalate (getServerPorts [] flag port) = flag.filter (fun c => !(c = ' ')) ∧
    (∀ p ∈ getServerPorts [] flag port, ',' ∉ p) ∧
    ((∀ c ∈ flag, c ≠ '\t' ∧ c ≠ '\n' ∧ c ≠ '\r') →
      getServerPorts [] flag port = specResolveRaw flag) := by
  have h := getServerPorts_of_no_mappings [] flag port getCfInstancePorts_unset
  simp only [hflag, if_false] at h
  refine ⟨h, ?_, ?_, ?_⟩
  · rw [h]; exact intercalate_stringsSplit _ _
  · rw [h]; exact fun p hp => (mem_stringsSplit _ _ p hp).1
  · intro hws
    rw [h, specResolveRaw, specStripWhitespace_eq_filter_space flag hws]

theorem getServerPorts_flag_witness :
    getServerPorts [] "3000, 4000".toList "5000".toList = ["3000".toList, "4000".toList] ∧
    getServerPorts [] "3000, 4000".toList "5000".toList = specResolveRaw "3000, 4000".toList := by
  have h := getServerPorts_flag "3000, 4000".toList "5000".toList (by decide)
  exact ⟨h.1.trans (by decide), h.2.2.2 (by decide)⟩

/-- C4, as stated, fails: with no mappings, an empty flag and PORT
"5000<tab>" the port keeps its tab, while the whitespace-stripped split is
"5000". -/
theorem port_env_tab_not_stripped :
    getCfInstancePorts [] = [] ∧
    getServerPorts [] [] "5000\t".toList = ["5000\t".toList] ∧
    specResolveRaw "5000\t".toList = ["5000".toList] ∧
    getServerPorts [] [] "5000\t".toList ≠ specResolveRaw "5000\t".toList := by
  decide

/-- C4, amended: when CF_INSTANCE_PORTS yields no mappings and the --ports
flag is empty, getServerPorts returns the comma split of PORT with its space
characters (U+0020) removed if PORT is non-empty (the whitespace-stripped
split when PORT has no tab, line feed or carriage return), and exactly the
one-element list "8080" if PORT is also empty. The hardcoded default is used
only when all three prior sources yielded nothing: with mappings the result
is their internal ports, and without mappings a non-empty flag alone decides
the result. -/
theorem getServerPorts_port_env_or_default (cf flag port : GoString) :
    (getCfInstancePorts cf = [] → flag = [] → port ≠ [] →
      getServerPorts cf flag port = stringsSplit (port.filter (fun c => !(c = ' '))) ',' ∧
      ((∀ c ∈ port, c ≠ '\t' ∧ c ≠ '\n' ∧ c ≠ '\r') →
        getServerPorts cf flag port = specResolveRaw port)) ∧
    (getCfInstancePorts cf = [] → flag = [] → port = [] →
      getServerPorts cf flag port = ["8080".toList]) ∧
    (getCfInstancePorts cf ≠ [] → getServerPorts cf flag port = getCfInstancePorts cf) ∧
    (getCfInstancePorts cf = [] → flag ≠ [] →
      getServerPorts cf flag port = stringsSplit (flag.filter (fun c => !(c = ' '))) ',') := by
  refine ⟨fun hcf hf hp => ?_, fun hcf hf hp => ?_, fun hcf => ?_, fun hcf hf => ?_⟩
  · have h := getServerPorts_of_no_mappings cf flag port hcf
    simp only [hf, hp, if_true, if_false] at h
    rw [hf]
    refine ⟨h, fun hws => ?_⟩
    rw [h, specResolveRaw, specStripWhitespace_eq_filter_space port hws]
  · rw [getServerPorts_of_no_mappings cf flag port hcf, hf, hp]
    decide
  · exact getServerPorts_of_mappings cf flag port hcf
  · have h := getServerPorts_of_no_mappings cf flag port hcf
    simp only [hf, if_false] at h
    exact h

theorem getServerPorts_port_env_or_default_witness :
    getServerPorts "not-json".toList [] "5000".toList = ["5000".toList] ∧
    getServerPorts "not-json".toList [] [] = ["8080".toList] :=
  ⟨((getServerPorts_port_env_or_default "not-json".toList [] "5000".toList).1
      (by decide) rfl (by decide)).1.trans (by decide),
    (getServerPorts_port_env_or_default "not-json".toList [] []).2.1 (by decide) rfl rfl⟩

/-- C7, as stated, fails: the flag "80<tab>" gives a port that contains a
tab. -/
theorem raw_port_keeps_tab :
    getCfInstancePorts [] = [] ∧
    getServerPorts [] "80\t".toList [] = ["80\t".toList] ∧
    '\t' ∈ "80\t".toList := by
  decide

/-- C7, amended: whenever the result of getServerPorts comes from a raw
comma-delimited string (the --ports flag, PORT or the default), every space
character (U+0020) is removed before the split: no element of the returned
list contains a space, nor a comma, for every raw string. -/
theorem raw_ports_have_no_space (cf flag port : GoString)
    (hcf : getCfInstancePorts cf = []) :
    ∀ p ∈ getServerPorts cf flag port, ' ' ∉ p ∧ ',' ∉ p := by
  intro p hp
  rw [getServerPorts_of_no_mappings cf flag port hcf] at hp
  obtain ⟨hsep, hsub⟩ := mem_stringsSplit _ _ p hp
  refine ⟨fun hmem => ?_, hsep⟩
  have := hsub ' ' hmem
  simp at this

theorem raw_ports_have_no_space_witness :
    getServerPorts [] " 3000 , 4000 ".toList [] = ["3000".toList, "4000".toList] ∧
    ' ' ∉ "3000".toList ∧ ',' ∉ "3000".toList :=
  ⟨by decide,
    raw_ports_have_no_space [] " 3000 , 4000 ".toList [] (by decide) "3000".toList (by decide)⟩

/-! ## Port resolution from `CF_INSTANCE_PORTS` -/

theorem parseJSON_empty : parseJSON [] = none := by rfl

theorem decodePortMap_of_isPortMapObject (v : JSON) (m : PortMap)
    (h : isPortMapObject v m) : decodePortMap v = (m, false) := by
  obtain ⟨le, li, hv, hle, hli⟩ := h
  have hE : findField ['E', 'x', 't', 'e', 'r', 'n', 'a', 'l'] = some Field.External := by
    decide
  have hI : findField ['I', 'n', 't', 'e', 'r', 'n', 'a', 'l'] = some Field.Internal := by
    decide
  rcases hv with rfl | rfl
  · simp [decodePortMap, storeMember, hE, hI, storeInt, hle, hli]
  · simp [decodePortMap, storeMember, hE, hI, storeInt, hle, hli]

theorem map_decodePortMap_of_forall₂ (vs : List JSON) (ms : List PortMap)
    (h : List.Forall₂ isPortMapObject vs ms) :
    vs.map (fun v => (decodePortMap v).1) = ms := by
  induction h with
  | nil => rfl
  | cons hv _ ih =>
    simp only [List.map_cons, ih, decodePortMap_of_isPortMapObject _ _ hv]

theorem getCfInstancePorts_of_array (cf : GoString) (vs : List JSON)
    (h : parseJSON cf = some (JSON.arr vs)) :
    getCfInstancePorts cf = vs.map (fun v => Itoa (decodePortMap v).1.Internal) := by
  have hne : cf ≠ [] := by
    intro hnil
    rw [hnil, parseJSON_empty] at h
    exact Option.noConfusion h
  simp [getCfInstancePorts, hne, jsonUnmarshal, h]

/-- What `getCfInstancePorts` returns for a value whose JSON is not a
non-empty array: nothing. -/
theorem getCfInstancePorts_of_no_array (cf : GoString)
    (h : parseJSON cf = none ∨
      ∃ v, parseJSON cf = some v ∧ ∀ e es, v ≠ JSON.arr (e :: es)) :
    getCfInstancePorts cf = [] := by
  by_cases hne : cf = []
  · simp [getCfInstancePorts, hne]
  · rcases h with h | ⟨v, h, hv⟩
    · simp [getCfInstancePorts, hne, jsonUnmarshal, h]
    · cases v with
      | arr elems =>
        cases elems with
        | nil => simp [getCfInstancePorts, hne, jsonUnmarshal, h]
        | cons e es => exact absurd rfl (hv e es)
      | null => simp [getCfInstancePorts, hne, jsonUnmarshal, h]
      | bool b => simp [getCfInstancePorts, hne, jsonUnmarshal, h]
      | num lit => simp [getCfInstancePorts, hne, jsonUnmarshal, h]
      | str t => simp [getCfInstancePorts, hne, jsonUnmarshal, h]
      | obj members => simp [getCfInstancePorts, hne, jsonUnmarshal, h]

/-- C2, as stated, fails: a CF_INSTANCE_PORTS value whose Internal port is a
string instead of an integer makes json.Unmarshal return an error, yet the
mapping is kept with Internal 0, so getServerPorts returns "0" where it
returns "8080" for an unset variable. -/
theorem type_error_keeps_mapping :
    (jsonUnmarshal "[\x7b\"External\":80,\"Internal\":\"8080\"\x7d]".toList).2 = true ∧
    getServerPorts "[\x7b\"External\":80,\"Internal\":\"8080\"\x7d]".toList [] []
      = ["0".toList] ∧
    getServerPorts [] [] [] = ["8080".toList] ∧
    getServerPorts "[\x7b\"External\":80,\"Internal\":\"8080\"\x7d]".toList [] []
      ≠ getServerPorts [] [] [] := by
  decide

/-! ## Decimal renderings -/

theorem digitChar_digit : ∀ d, d < 10 →
    (Nat.digitChar d).isDigit = true ∧ (Nat.digitChar d).toNat - '0'.toNat = d := by
  decide

theorem digitsValue_append (xs ys : GoString) (acc : Nat) :
    digitsValue (xs ++ ys) acc = (digitsValue xs acc).bind (digitsValue ys) := by
  induction xs generalizing acc with
  | nil => rfl
  | cons c cs ih =>
    by_cases hc : c.isDigit = true
    · simp [digitsValue, hc, ih]
    · simp [digitsValue, hc]

theorem toDigitsCore_append (fuel n : Nat) (ds : List Char) :
    Nat.toDigitsCore 10 fuel n ds = Nat.toDigitsCore 10 fuel n [] ++ ds := by
  induction fuel generalizing n ds with
  | zero => simp [Nat.toDigitsCore]
  | succ fuel ih =>
    simp only [Nat.toDigitsCore]
    by_cases h : n / 10 = 0
    · simp [h]
    · simp only [h, if_false]
      rw [ih (n / 10) (Nat.digitChar (n % 10) :: ds), ih (n / 10) [Nat.digitChar (n % 10)]]
      simp

theorem digitsValue_toDigitsCore (fuel n : Nat) (h : n < fuel) :
    digitsValue (Nat.toDigitsCore 10 fuel n []) 0 = some n := by
  induction fuel generalizing n with
  | zero => omega
  | succ fuel ih =>
    have hd := digitChar_digit (n % 10) (Nat.mod_lt n (by decide))
    simp only [Nat.toDigitsCore]
    by_cases hq : n / 10 = 0
    · have hn : n % 10 = n := by omega
      rw [hn] at hd
      simp only [hq, if_true, hn]
      simpa [digitsValue] using hd
    · have hd2 : (Nat.digitChar (n % 10)).toNat - 48 = n % 10 := hd.2
      simp only [hq, if_false]
      rw [toDigitsCore_append, digitsValue_append, ih (n / 10) (by omega)]
      simp [digitsValue, hd.1, hd2]
      omega

theorem toDigits_ne_nil (n : Nat) : Nat.toDigits 10 n ≠ [] := by
  unfold Nat.toDigits
  simp only [Nat.toDigitsCore]
  by_cases hq : n / 10 = 0
  · simp [hq]
  · simp only [hq, if_false]
    rw [toDigitsCore_append]
    simp

/-- A non-empty string of digits below `2 ^ 63` parses as its value. -/
theorem ParseInt_of_digitsValue (s : GoString) (n : Nat) (hne : s ≠ [])
    (hv : digitsValue s 0 = some n) (hn : n < 2 ^ 63) : ParseInt s = some (n : Int) := by
  cases s with
  | nil => exact absurd rfl hne
  | cons c t =>
    have hc : c.isDigit = true := by
      by_contra hc
      simp [digitsValue, hc] at hv
    have h1 : c ≠ '-' := by
      intro h
      rw [h] at hc
      exact absurd hc (by decide)
    have h2 : c ≠ '+' := by
      intro h
      rw [h] at hc
      exact absurd hc (by decide)
    have hn2 : n < 9223372036854775808 := by omega
    simp [ParseInt, h1, h2, hv, hn2]

/-- The rendering of a positive 64-bit integer parses as that integer. -/
theorem ParseInt_Itoa (i : Int) (hpos : 0 < i) (hmax : i < 2 ^ 63) :
    ParseInt (Itoa i) = some i := by
  have hlt : ¬ i < 0 := by omega
  simp only [Itoa, hlt, if_false]
  have hn : (i.natAbs : Int) = i := Int.natAbs_of_nonneg (by omega)
  have h := ParseInt_of_digitsValue (Nat.toDigits 10 i.natAbs) i.natAbs (toDigits_ne_nil _)
    (digitsValue_toDigitsCore _ _ (Nat.lt_succ_self _)) (by omega)
  rw [h, hn]

theorem ParseInt_lt (s : GoString) (n : Int) (h : ParseInt s = some n) : n < 2 ^ 63 := by
  cases s with
  | nil => simp [ParseInt] at h
  | cons c t =>
    simp only [ParseInt] at h
    by_cases hds : (if c = '-' ∨ c = '+' then t else c :: t) = []
    · simp [hds] at h
    · simp only [hds, if_false] at h
      cases hv : digitsValue (if c = '-' ∨ c = '+' then t else c :: t) 0 with
      | none => simp [hv] at h
      | some k =>
        simp only [hv] at h
        by_cases hc : c = '-'
        · by_cases hk : k ≤ 2 ^ 63
          · simp only [hc, hk, if_true, Option.some.injEq] at h
            omega
          · simp [hc] at h
            omega
        · by_cases hk : k < 2 ^ 63
          · simp only [hc, hk, if_true, if_false, Option.some.injEq] at h
            omega
          · simp [hc] at h
            omega

/-! ## Every decoded port is a 64-bit integer -/

theorem storeInt_lt (old : Int) (v : JSON) (h : old < 2 ^ 63) : (storeInt old v).1 < 2 ^ 63 := by
  cases v with
  | num lit =>
    cases hp : ParseInt lit with
    | none => simpa [storeInt, hp] using h
    | some n => simpa [storeInt, hp] using ParseInt_lt lit n hp
  | null => simpa [storeInt] using h
  | bool b => simpa [storeInt] using h
  | str t => simpa [storeInt] using h
  | arr elems => simpa [storeInt] using h
  | obj members => simpa [storeInt] using h

theorem storeMember_lt (acc : PortMap × Bool) (member : GoString × JSON)
    (h : acc.1.External < 2 ^ 63 ∧ acc.1.Internal < 2 ^ 63) :
    (storeMember acc member).1.External < 2 ^ 63 ∧
    (storeMember acc member).1.Internal < 2 ^ 63 := by
  unfold storeMember
  split
  · exact ⟨storeInt_lt _ _ h.1, h.2⟩
  · exact ⟨h.1, storeInt_lt _ _ h.2⟩
  · exact h

theorem foldl_storeMember_lt (members : List (GoString × JSON)) (acc : PortMap × Bool)
    (h : acc.1.External < 2 ^ 63 ∧ acc.1.Internal < 2 ^ 63) :
    (members.foldl storeMember acc).1.External < 2 ^ 63 ∧
    (members.foldl storeMember acc).1.Internal < 2 ^ 63 := by
  induction members generalizing acc with
  | nil => exact h
  | cons member rest ih => exact ih _ (storeMember_lt acc member h)

theorem decodePortMap_lt (v : JSON) : (decodePortMap v).1.Internal < 2 ^ 63 := by
  cases v with
  | obj members =>
    exact (foldl_storeMember_lt members (⟨0, 0⟩, false) ⟨by decide, by decide⟩).2
  | null => simp [decodePortMap]
  | bool b => simp [decodePortMap]
  | num lit => simp [decodePortMap]
  | str t => simp [decodePortMap]
  | arr elems => simp [decodePortMap]

theorem mem_jsonUnmarshal_lt (cf : GoString) :
    ∀ m ∈ (jsonUnmarshal cf).1, m.Internal < 2 ^ 63 := by
  intro m hm
  unfold jsonUnmarshal at hm
  split at hm
  · simp at hm
  · simp only [List.mem_map] at hm
    obtain ⟨v, _, rfl⟩ := hm
    exact decodePortMap_lt v
  · simp at hm
  · simp at hm

theorem getCfInstancePorts_eq_map (cf : GoString) :
    getCfInstancePorts cf = (jsonUnmarshal cf).1.map (fun m => Itoa m.Internal) := by
  by_cases hne : cf = []
  · subst hne
    rfl
  · simp [getCfInstancePorts, hne]

/-- Removing the spaces commutes with the split on commas. -/
theorem stringsSplit_filter_space (s : GoString) :
    stringsSplit (s.filter (fun c => !(c = ' '))) ',' =
      (stringsSplit s ',').map (fun f => f.filter (fun c => !(c = ' '))) := by
  induction s with
  | nil => rfl
  | cons c cs ih =>
    by_cases hsep : c = ','
    · subst hsep
      have hk : List.filter (fun c => !(c = ' ')) (',' :: cs) =
          ',' :: List.filter (fun c => !(c = ' ')) cs := by
        simp [List.filter]
      rw [hk, stringsSplit_cons_sep, stringsSplit_cons_sep, ih]
      rfl
    · obtain ⟨p, ps, hs, hc⟩ := stringsSplit_cons_other c cs ',' hsep
      rw [hc]
      rw [hs] at ih
      by_cases hsp : c = ' '
      · subst hsp
        have hk : List.filter (fun c => !(c = ' ')) (' ' :: cs) =
            List.filter (fun c => !(c = ' ')) cs := by
          simp [List.filter]
        rw [hk, ih]
        simp [List.filter]
      · have hk : List.filter (fun c => !(c = ' ')) (c :: cs) =
            c :: List.filter (fun c => !(c = ' ')) cs := by
          simp [List.filter, hsp]
        obtain ⟨q, qs, hq, hcq⟩ :=
          stringsSplit_cons_other c (List.filter (fun c => !(c = ' ')) cs) ',' hsep
        rw [hk, hcq]
        rw [hq] at ih
        simp only [List.map_cons, List.cons.injEq] at ih ⊢
        refine ⟨?_, ih.2⟩
        rw [ih.1]
        simp [List.filter, hsp]

/-! ## Which results are port numbers -/

theorem not_parsesPositive_of_none (s : GoString) (h : ParseInt s = none) :
    ¬ parsesPositive s := by
  rintro ⟨n, hn, _⟩
  rw [h] at hn
  exact Option.noConfusion hn

/-- C5, as stated, fails: a whitespace-only --ports flag gives the single
port "" and the flag "http" gives the port "http"; neither parses as an
integer. A mapping with Internal 0 gives the port "0", which is not
positive. -/
theorem ports_not_validated :
    getServerPorts [] " ".toList [] = [[]] ∧ ¬ parsesPositive [] ∧
    getServerPorts [] "http".toList [] = ["http".toList] ∧ ¬ parsesPositive "http".toList ∧
    getServerPorts "[\x7b\"External\":80,\"Internal\":0\x7d]".toList [] [] = ["0".toList] ∧
    ParseInt "0".toList = some 0 := by
  refine ⟨by decide, not_parsesPositive_of_none _ (by decide), by decide,
    not_parsesPositive_of_none _ (by decide), by decide, by decide⟩

/-- C5, amended: getServerPorts validates nothing, and every element of the
list it returns parses as a positive decimal integer provided the sources
hold port numbers: every Internal port decoded from CF_INSTANCE_PORTS is
positive, and the --ports flag and PORT, when non-empty, are comma-separated
lists of positive decimal integers between optional spaces. -/
theorem ports_parse_positive (cf flag port : GoString)
    (hcf : ∀ m ∈ (jsonUnmarshal cf).1, 0 < m.Internal)
    (hflag : flag ≠ [] →
      ∀ f ∈ stringsSplit flag ',', parsesPositive (f.filter (fun c => !(c = ' '))))
    (hport : port ≠ [] →
      ∀ f ∈ stringsSplit port ',', parsesPositive (f.filter (fun c => !(c = ' ')))) :
    ∀ p ∈ getServerPorts cf flag port, parsesPositive p := by
  intro p hp
  by_cases hno : getCfInstancePorts cf = []
  · rw [getServerPorts_of_no_mappings cf flag port hno, stringsSplit_filter_space] at hp
    obtain ⟨f, hf, rfl⟩ := List.mem_map.1 hp
    by_cases h1 : flag = []
    · by_cases h2 : port = []
      · simp only [h1, h2, if_true] at hf
        have hf2 : f = "8080".toList := by
          have h8 : stringsSplit "8080".toList ',' = ["8080".toList] := by decide
          rw [h8] at hf
          simpa using hf
        subst hf2
        exact ⟨8080, by decide, by decide⟩
      · simp only [h1, h2, if_true, if_false] at hf
        exact hport h2 f hf
    · simp only [h1, if_false] at hf
      exact hflag h1 f hf
  · rw [getServerPorts_of_mappings cf flag port hno, getCfInstancePorts_eq_map] at hp
    obtain ⟨m, hm, rfl⟩ := List.mem_map.1 hp
    exact ⟨m.Internal, ParseInt_Itoa _ (hcf m hm) (mem_jsonUnmarshal_lt cf m hm), hcf m hm⟩

theorem ports_parse_positive_witness :
    parsesPositive "4000".toList ∧ parsesPositive "8080".toList :=
  ⟨ports_parse_positive [] "3000, 4000".toList [] (by decide)
      (fun _ => by
        have h : stringsSplit "3000, 4000".toList ',' = ["3000".toList, " 4000".toList] := by
          decide
        rw [h]
        intro f hf
        rcases List.mem_cons.1 hf with rfl | hf
        · exact ⟨3000, by decide, by decide⟩
        · rcases List.mem_cons.1 hf with rfl | hf
          · exact ⟨4000, by decide, by decide⟩
          · simp at hf)
      (fun h => absurd rfl h) "4000".toList (by decide),
    ports_parse_positive
      "[\x7b\"External\":80,\"Internal\":8080\x7d]".toList [] []
      (by decide) (fun h => absurd rfl h) (fun h => absurd rfl h) "8080".toList (by decide)⟩

/-! ## The status poller -/

theorem Sprintf_status (n m : GoString) (i : Int) :
    Sprintf "%s. Says %s. on index: %d".toList [Arg.str n, Arg.str m, Arg.int i] =
      specStatusLine n m i := by
  simp [Sprintf, specStatusLine]

theorem pollerTick_nil (n m : GoString) (i : Int) :
    pollerTick none n m i = Output.stdout (specStatusLine n m i ++ ['\n']) := by
  simp only [pollerTick, Sprintf_status]

theorem stepListener_frame (s t : State) (i : Nat) (l : Listener) (r : Option GoString)
    (h : stepListener s i l r = some t) :
    sameConfig s t ∧ ∀ x, Output.stdout x ∈ t.out → Output.stdout x ∈ s.out := by
  unfold stepListener at h
  split at h
  · cases h
    exact ⟨⟨rfl, rfl, rfl, rfl⟩, fun x hx => by simpa using hx⟩
  · cases h
    exact ⟨⟨rfl, rfl, rfl, rfl⟩, fun x hx => hx⟩
  · cases h
    refine ⟨⟨rfl, rfl, rfl, rfl⟩, fun x hx => ?_⟩
    cases he : s.err with
    | none => simpa [he] using hx
    | some e => simpa [he] using hx
  · cases h
    exact ⟨⟨rfl, rfl, rfl, rfl⟩, fun x hx => by simpa using hx⟩
  · cases h
    exact ⟨⟨rfl, rfl, rfl, rfl⟩, fun x hx => hx⟩
  · exact Option.noConfusion h

theorem step_frame (s t : State) (e : Event) (h : step s e = some t) :
    sameConfig s t ∧
    ∀ x, Output.stdout x ∈ t.out →
      Output.stdout x ∈ s.out ∨ x = specStatusLine s.appName s.message s.index ++ ['\n'] := by
  unfold step at h
  split at h
  · exact Option.noConfusion h
  · cases e with
    | spawn =>
      simp only at h
      split at h
      · cases h
        exact ⟨⟨rfl, rfl, rfl, rfl⟩, fun x hx => Or.inl hx⟩
      · exact Option.noConfusion h
    | join =>
      simp only at h
      split at h
      · cases h
        exact ⟨⟨rfl, rfl, rfl, rfl⟩, fun x hx => Or.inl (by simpa using hx)⟩
      · exact Option.noConfusion h
    | tick =>
      simp only at h
      cases h
      refine ⟨⟨rfl, rfl, rfl, rfl⟩, fun x hx => ?_⟩
      rcases List.mem_append.1 hx with hx | hx
      · exact Or.inl hx
      · right
        cases he : s.err with
        | none =>
          rw [he, pollerTick_nil] at hx
          simpa using hx
        | some e =>
          rw [he] at hx
          simp [pollerTick] at hx
    | listener i r =>
      simp only at h
      split at h
      · rename_i l _
        have hf := stepListener_frame s t i l r h
        exact ⟨hf.1, fun x hx => Or.inl (hf.2 x hx)⟩
      · exact Option.noConfusion h

theorem run_frame (es : List Event) (s t : State) (h : run s es = some t)
    (hs : ∀ x, Output.stdout x ∈ s.out →
      x = specStatusLine s.appName s.message s.index ++ ['\n']) :
    sameConfig s t ∧
    ∀ x, Output.stdout x ∈ t.out →
      x = specStatusLine s.appName s.message s.index ++ ['\n'] := by
  induction es generalizing s with
  | nil =>
    cases h
    exact ⟨⟨rfl, rfl, rfl, rfl⟩, hs⟩
  | cons e es ih =>
    simp only [run] at h
    cases hst : step s e with
    | none => simp [hst] at h
    | some s1 =>
      simp only [hst] at h
      obtain ⟨⟨c1, c2, c3, c4⟩, hout⟩ := step_frame s s1 e hst
      have h1 := ih s1 h (fun x hx => by
        rw [c1, c2, c3]
        rcases hout x hx with hx | hx
        · exact hs x hx
        · exact hx)
      obtain ⟨⟨d1, d2, d3, d4⟩, hfin⟩ := h1
      refine ⟨⟨d1.trans c1, d2.trans c2, d3.trans c3, d4.trans c4⟩, fun x hx => ?_⟩
      have := hfin x hx
      rwa [c1, c2, c3] at this

/-- The status line: for every application name n, message m and index i,
a tick that reads a nil `err` prints exactly n, ". Says ", m, ". on index: "
and the decimal rendering of i; so does the first tick after a successful
fetch, and no other line ever reaches the standard output in a run that
starts from a successful fetch. The name is APP_NAME when non-empty and
"Lattice-app" otherwise. -/
theorem poller_status_line (n m appNameEnv : GoString) (i : Int) (ports : List GoString) :
    pollerTick none n m i = Output.stdout (specStatusLine n m i ++ ['\n']) ∧
    specStatusLine n m i = n ++ ". Says ".toList ++ m ++ ". on index: ".toList ++ Itoa i ∧
    (step (initState ports n m i none) Event.tick).map State.out
      = some [Output.stdout (specStatusLine n m i ++ ['\n'])] ∧
    (∀ es t x, run (initState ports n m i none) es = some t → Output.stdout x ∈ t.out →
      x = specStatusLine n m i ++ ['\n']) ∧
    pollerTick none "Foo".toList "Hi".toList 3
      = Output.stdout "Foo. Says Hi. on index: 3\n".toList ∧
    fetchAppName appNameEnv = (if appNameEnv = [] then "Lattice-app".toList else appNameEnv) := by
  refine ⟨pollerTick_nil n m i, rfl, ?_, ?_, by decide, rfl⟩
  · simp [step, initState, pollerTick_nil]
  · intro es t x hrun hx
    exact (run_frame es _ t hrun (fun y hy => by simp [initState] at hy)).2 x hx

/-! ## The shared variable `err` -/

/-- The receive of a listener goroutine stores the terminal result of its
server in `err`, whatever `err` held, and the next tick prints from it. -/
theorem listener_receive_sets_err (s : State) (i : Nat) (l : Listener) (r : Option GoString)
    (hfin : s.finished = false) (hget : s.listeners.get? i = some l) (hpc : l.pc = Pc.wait) :
    ∃ t, step s (Event.listener i r) = some t ∧ t.err = r ∧
      (step t Event.tick).map State.out
        = some (s.out ++ [pollerTick r s.appName s.message s.index]) := by
  have h1 : step s (Event.listener i r) = stepListener s i l r := by
    unfold step
    simp only [hfin, Bool.false_eq_true, if_false, hget]
  rw [h1]
  unfold stepListener
  rw [hpc]
  refine ⟨_, rfl, rfl, ?_⟩
  simp [step, hfin]

/-- C8, on the code: the listener goroutine assigns its terminal result to the
variable `err` of `main`, the one the poller reads. After a successful fetch
of index 3, one listener on 8080 whose bind fails makes the next tick print
that failure as a failed index fetch; after a failed fetch, a listener that
stops without error makes the next tick print the success line. -/
theorem poller_reads_listener_result :
    (run (initState ["8080".toList] "Foo".toList "Hi".toList 3 none)
        [Event.tick, Event.spawn, Event.listener 0 none,
          Event.listener 0 (some "listen tcp :8080: bind: address already in use".toList),
          Event.tick]).map State.out
      = some [Output.stdout "Foo. Says Hi. on index: 3\n".toList,
          Output.info "lattice-app.up".toList [("port".toList, "8080".toList)],
          Output.stderr
            "Failed to fetch index: listen tcp :8080: bind: address already in use\n".toList] ∧
    (run (initState ["8080".toList] "Foo".toList "Hi".toList 0 (some "connection refused".toList))
        [Event.tick, Event.spawn, Event.listener 0 none, Event.listener 0 none,
          Event.tick]).map State.out
      = some [Output.stderr "Failed to fetch index: connection refused\n".toList,
          Output.info "lattice-app.up".toList [("port".toList, "8080".toList)],
          Output.stdout "Foo. Says Hi. on index: 0\n".toList] := by
  decide

/-- C9, on the code: after a successful startup fetch of index 3 with name
"Foo" and message "Hi" the first tick prints "Foo. Says Hi. on index: 3", but
once the listener on 9090 has failed every tick prints the failure of the
listener on the error stream and no status line, although the startup fetch
succeeded. -/
theorem status_line_lost_after_listener_failure :
    fetchAppName "Foo".toList = "Foo".toList ∧
    (run (initState ["9090".toList] (fetchAppName "Foo".toList) "Hi".toList 3 none)
        [Event.spawn, Event.tick, Event.listener 0 none,
          Event.listener 0 (some "listen tcp :9090: bind: address already in use".toList),
          Event.tick, Event.tick]).map State.out
      = some [Output.stdout "Foo. Says Hi. on index: 3\n".toList,
          Output.info "lattice-app.up".toList [("port".toList, "9090".toList)],
          Output.stderr
            "Failed to fetch index: listen tcp :9090: bind: address already in use\n".toList,
          Output.stderr
            "Failed to fetch index: listen tcp :9090: bind: address already in use\n".toList] := by
  decide

/-- C10, on the code: the listener goroutines share the variable `err` of
`main`. With listeners on 8080 and 9090, when 9090 fails and 8080 stops
without error before the goroutine of 9090 tests `err`, no error is logged at
all; when 8080 stops without error and 9090 fails before the goroutine of
8080 tests `err`, the failure of 9090 is logged with server port 8080 as
well. In both runs every listener terminates and the last line is logged. -/
theorem listener_failure_log_misattributed :
    (run (initState ["8080".toList, "9090".toList] "Foo".toList "Hi".toList 3 none)
        [Event.spawn, Event.spawn, Event.listener 0 none, Event.listener 1 none,
          Event.listener 1 (some "accept tcp: use of closed connection".toList),
          Event.listener 0 none,
          Event.listener 1 none, Event.listener 1 none, Event.listener 1 none,
          Event.listener 0 none, Event.listener 0 none, Event.listener 0 none,
          Event.join]).map State.out
      = some [Output.info "lattice-app.up".toList [("port".toList, "8080".toList)],
          Output.info "lattice-app.up".toList [("port".toList, "9090".toList)],
          Output.info "shutting down server".toList [("server port".toList, "9090".toList)],
          Output.info "shutting down server".toList [("server port".toList, "8080".toList)],
          Output.info "shutting latice app".toList []] ∧
    (run (initState ["8080".toList, "9090".toList] "Foo".toList "Hi".toList 3 none)
        [Event.spawn, Event.spawn, Event.listener 0 none, Event.listener 1 none,
          Event.listener 0 none,
          Event.listener 1 (some "accept tcp: use of closed connection".toList),
          Event.listener 0 none, Event.listener 0 none, Event.listener 0 none,
          Event.listener 1 none, Event.listener 1 none, Event.listener 1 none,
          Event.join]).map State.out
      = some [Output.info "lattice-app.up".toList [("port".toList, "8080".toList)],
          Output.info "lattice-app.up".toList [("port".toList, "9090".toList)],
          Output.error "shutting down server".toList
            "accept tcp: use of closed connection".toList
            [("server port".toList, "8080".toList)],
          Output.info "shutting down server".toList [("server port".toList, "8080".toList)],
          Output.error "shutting down server".toList
            "accept tcp: use of closed connection".toList
            [("server port".toList, "9090".toList)],
          Output.info "shutting down server".toList [("server port".toList, "9090".toList)],
          Output.info "shutting latice app".toList []] := by
  decide

/-! ## The fork-join of the listener goroutines -/

theorem active_set (ls : List Listener) (i : Nat) (l l1 : Listener)
    (h : ls.get? i = some l) :
    active (ls.set i l1) + (if l.pc = Pc.done then 0 else 1) =
      active ls + (if l1.pc = Pc.done then 0 else 1) := by
  induction ls generalizing i with
  | nil => simp at h
  | cons a rest ih =>
    cases i with
    | zero =>
      simp only [List.get?_cons_zero, Option.some.injEq] at h
      subst h
      simp only [List.set_cons_zero, active]
      omega
    | succ j =>
      simp only [List.get?_cons_succ] at h
      have := ih j h
      simp only [List.set_cons_succ, active]
      omega

theorem active_append (ls : List Listener) (l : Listener) :
    active (ls ++ [l]) = active ls + (if l.pc = Pc.done then 0 else 1) := by
  induction ls with
  | nil => simp [active]
  | cons a rest ih =>
    have h : active (a :: (rest ++ [l])) =
        (if a.pc = Pc.done then 0 else 1) + active (rest ++ [l]) := rfl
    have h0 : active (a :: rest) = (if a.pc = Pc.done then 0 else 1) + active rest := rfl
    rw [List.cons_append, h, h0, ih]
    omega

theorem active_eq_zero (ls : List Listener) (h : active ls = 0) :
    ∀ l ∈ ls, l.pc = Pc.done := by
  induction ls with
  | nil => simp
  | cons a rest ih =>
    simp only [active] at h
    intro l hl
    rcases List.mem_cons.1 hl with rfl | hl
    · by_contra hne
      simp [hne] at h
    · exact ih (by omega) l hl

theorem map_port_set (ls : List Listener) (i : Nat) (l l1 : Listener)
    (h : ls.get? i = some l) (hp : l1.port = l.port) :
    (ls.set i l1).map Listener.port = ls.map Listener.port := by
  induction ls generalizing i with
  | nil => simp at h
  | cons a rest ih =>
    cases i with
    | zero =>
      simp only [List.get?_cons_zero, Option.some.injEq] at h
      subst h
      simp [hp]
    | succ j =>
      simp only [List.get?_cons_succ] at h
      simp [ih j h]

theorem forkJoin_initState (ports : List GoString) (appName message : GoString)
    (index : Int) (err : Option GoString) :
    ForkJoin (initState ports appName message index err) := by
  refine ⟨by simp [initState], by simp [initState], by simp [initState, active],
    by simp [initState], by simp [initState]⟩

/-- A statement of listener `i` that replaces its entry `l` by `l1` keeps the
invariant. -/
theorem forkJoin_of_update (s t : State) (i : Nat) (l l1 : Listener)
    (hget : s.listeners.get? i = some l) (hinv : ForkJoin s) (hfin : s.finished = false)
    (hls : t.listeners = s.listeners.set i l1) (hports : t.ports = s.ports)
    (hnext : t.next = s.next) (hf : t.finished = s.finished)
    (hport : l1.port = l.port) (hl : l.pc ≠ Pc.done)
    (hwg : t.wg = s.wg - (if l1.pc = Pc.done then 1 else 0))
    (hres : l1.pc ≠ Pc.start → l1.pc ≠ Pc.wait → l1.result ≠ none) :
    ForkJoin t := by
  obtain ⟨h1, h2, h3, h4, _⟩ := hinv
  refine ⟨?_, ?_, ?_, ?_, ?_⟩
  · rw [hls, hports, hnext, map_port_set _ _ _ _ hget hport]
    exact h1
  · rw [hports, hnext]
    exact h2
  · have ha := active_set s.listeners i l l1 hget
    rw [hwg, hls, h3]
    simp only [hl, if_false] at ha
    by_cases hd : l1.pc = Pc.done
    · simp only [hd, if_true] at ha ⊢
      omega
    · simp only [hd, if_false] at ha ⊢
      omega
  · intro x hx
    rw [hls] at hx
    rcases List.mem_or_eq_of_mem_set hx with hx | rfl
    · exact h4 x hx
    · exact hres
  · intro htrue
    rw [hf, hfin] at htrue
    exact absurd htrue (by decide)

theorem stepListener_forkJoin (s t : State) (i : Nat) (l : Listener) (r : Option GoString)
    (hget : s.listeners.get? i = some l) (hinv : ForkJoin s) (hfin : s.finished = false)
    (h : stepListener s i l r = some t) : ForkJoin t ∧ t.finished = false := by
  have hmem : l ∈ s.listeners := List.get?_mem hget
  have hr := hinv.2.2.2.1 l hmem
  unfold stepListener at h
  split at h
  · rename_i hpc
    cases h
    exact ⟨forkJoin_of_update s _ i l { l with pc := Pc.wait } hget hinv hfin rfl rfl rfl rfl rfl
      (by simp [hpc]) (by simp) (by simp), hfin⟩
  · rename_i hpc
    cases h
    exact ⟨forkJoin_of_update s _ i l { l with pc := Pc.check, result := some r } hget hinv hfin
      rfl rfl rfl rfl rfl (by simp [hpc]) (by simp) (by simp), hfin⟩
  · rename_i hpc
    cases h
    exact ⟨forkJoin_of_update s _ i l { l with pc := Pc.logDown } hget hinv hfin rfl rfl rfl rfl
      rfl (by simp [hpc]) (by simp) (fun _ _ => hr (by simp [hpc]) (by simp [hpc])), hfin⟩
  · rename_i hpc
    cases h
    exact ⟨forkJoin_of_update s _ i l { l with pc := Pc.exit } hget hinv hfin rfl rfl rfl rfl
      rfl (by simp [hpc]) (by simp) (fun _ _ => hr (by simp [hpc]) (by simp [hpc])), hfin⟩
  · rename_i hpc
    cases h
    exact ⟨forkJoin_of_update s _ i l { l with pc := Pc.done } hget hinv hfin rfl rfl rfl rfl
      rfl (by simp [hpc]) (by simp) (fun _ _ => hr (by simp [hpc]) (by simp [hpc])), hfin⟩
  · exact Option.noConfusion h

theorem step_forkJoin (s t : State) (e : Event) (hinv : ForkJoin s)
    (h : step s e = some t) : ForkJoin t := by
  unfold step at h
  split at h
  · exact Option.noConfusion h
  · rename_i hfin
    have hfin : s.finished = false := by simpa using hfin
    obtain ⟨h1, h2, h3, h4, h5⟩ := hinv
    cases e with
    | spawn =>
      simp only at h
      split at h
      · rename_i port hport
        cases h
        have hlt : s.next < s.ports.length := by
          by_contra hge
          rw [List.get?_eq_none.2 (by omega)] at hport
          exact Option.noConfusion hport
        refine ⟨?_, hlt, ?_, ?_, ?_⟩
        · simp only [List.map_append, List.map_cons, List.map_nil, h1]
          have hport2 : s.ports[s.next]? = some port := by
            simpa [List.get?_eq_getElem?] using hport
          rw [List.take_succ, hport2]
          rfl
        · simp only [active_append, h3]
          simp
        · intro x hx
          rcases List.mem_append.1 hx with hx | hx
          · exact h4 x hx
          · simp only [List.mem_singleton] at hx
            subst hx
            intro hne
            exact absurd rfl hne
        · intro htrue
          rw [hfin] at htrue
          exact absurd htrue (by decide)
      · exact Option.noConfusion h
    | join =>
      simp only at h
      split at h
      · rename_i hj
        cases h
        exact ⟨h1, h2, h3, h4, fun _ => hj⟩
      · exact Option.noConfusion h
    | tick =>
      simp only at h
      cases h
      exact ⟨h1, h2, h3, h4, h5⟩
    | listener i r =>
      simp only at h
      split at h
      · rename_i l hget
        exact (stepListener_forkJoin s t i l r hget ⟨h1, h2, h3, h4, h5⟩ hfin h).1
      · exact Option.noConfusion h

theorem run_forkJoin (es : List Event) (s t : State) (hinv : ForkJoin s)
    (h : run s es = some t) : ForkJoin t := by
  induction es generalizing s with
  | nil =>
    cases h
    exact hinv
  | cons e es ih =>
    simp only [run] at h
    cases hst : step s e with
    | none => simp [hst] at h
    | some s1 =>
      simp only [hst] at h
      exact ih s1 (step_forkJoin s s1 e hinv hst) h

/-- In every run of the model (the accesses to `err` atomic, no crash), the
goroutines started are those of a prefix of the port list, in order, and when
the last line is logged one goroutine per port has been started and every
one of them has received the terminal result of its server and has
returned. -/
theorem fork_join (ports : List GoString) (appName message : GoString) (index : Int)
    (err : Option GoString) (es : List Event) (t : State)
    (h : run (initState ports appName message index err) es = some t) :
    t.listeners.map Listener.port = ports.take t.next ∧ t.next ≤ ports.length ∧
    (t.finished = true →
      t.listeners.map Listener.port = ports ∧ t.listeners.length = ports.length ∧
      ∀ l ∈ t.listeners, l.pc = Pc.done ∧ l.result ≠ none) := by
  have hcfg : t.ports = ports :=
    (run_frame es _ t h (fun y hy => by simp [initState] at hy)).1.2.2.2
  obtain ⟨h1, h2, h3, h4, h5⟩ := run_forkJoin es _ t (forkJoin_initState _ _ _ _ _) h
  rw [hcfg] at h1 h2 h5
  refine ⟨h1, h2, fun hfin => ?_⟩
  obtain ⟨hn, hw⟩ := h5 hfin
  have hall : t.listeners.map Listener.port = ports := by
    rw [h1, hn, List.take_length]
  have hdone : ∀ l ∈ t.listeners, l.pc = Pc.done := by
    apply active_eq_zero
    rw [hw] at h3
    exact_mod_cast h3.symm
  refine ⟨hall, ?_, fun l hl => ⟨hdone l hl, ?_⟩⟩
  · rw [← hall, List.length_map]
  · exact h4 l hl (by simp [hdone l hl]) (by simp [hdone l hl])

/-- In the model, a statement of listener `i` touches no other goroutine: the
loop position of `main`, its return and every other listener are as
before. -/
theorem listener_step_frame (s t : State) (i : Nat) (r : Option GoString)
    (h : step s (Event.listener i r) = some t) :
    t.next = s.next ∧ t.finished = s.finished ∧
    t.listeners.length = s.listeners.length ∧
    ∀ j, j ≠ i → t.listeners.get? j = s.listeners.get? j := by
  unfold step at h
  split at h
  · exact Option.noConfusion h
  · simp only at h
    split at h
    · unfold stepListener at h
      split at h
      · cases h
        exact ⟨rfl, rfl, by simp, fun j hj => by simp [List.getElem?_set, Ne.symm hj]⟩
      · cases h
        exact ⟨rfl, rfl, by simp, fun j hj => by simp [List.getElem?_set, Ne.symm hj]⟩
      · cases h
        exact ⟨rfl, rfl, by simp, fun j hj => by simp [List.getElem?_set, Ne.symm hj]⟩
      · cases h
        exact ⟨rfl, rfl, by simp, fun j hj => by simp [List.getElem?_set, Ne.symm hj]⟩
      · cases h
        exact ⟨rfl, rfl, by simp, fun j hj => by simp [List.getElem?_set, Ne.symm hj]⟩
      · exact Option.noConfusion h
    · exact Option.noConfusion h

/-- In the model, a listener goroutine that has not returned can always take
its next statement, whatever the other goroutines have done. -/
theorem listener_enabled (s : State) (j : Nat) (l : Listener) (r : Option GoString)
    (hfin : s.finished = false) (hget : s.listeners.get? j = some l) (hpc : l.pc ≠ Pc.done) :
    ∃ t, step s (Event.listener j r) = some t := by
  have h1 : step s (Event.listener j r) = stepListener s j l r := by
    unfold step
    simp only [hfin, Bool.false_eq_true, if_false, hget]
  rw [h1]
  unfold stepListener
  cases hp : l.pc with
  | done => exact absurd hp hpc
  | start => exact ⟨_, rfl⟩
  | wait => exact ⟨_, rfl⟩
  | check => exact ⟨_, rfl⟩
  | logDown => exact ⟨_, rfl⟩
  | exit => exact ⟨_, rfl⟩

/-! ## The parser on the text of a port mapping array -/

theorem isJSONSpace_of_isSpaces (w : GoString) (hw : isSpaces w) :
    ∀ c ∈ w, isJSONSpace c = true := by
  intro c hc
  rcases hw c hc with h | h | h | h <;> simp [isJSONSpace, h]

theorem skipSpace_append (w rest : GoString) (hw : isSpaces w) :
    skipSpace (w ++ rest) = skipSpace rest := by
  induction w with
  | nil => rfl
  | cons c cs ih =>
    have hc := isJSONSpace_of_isSpaces (c :: cs) hw c (List.mem_cons_self _ _)
    have hcs : isSpaces cs := fun d hd => hw d (List.mem_cons_of_mem _ hd)
    simp [skipSpace, hc, ih hcs]

theorem skipSpace_cons (c : Char) (rest : GoString) (hc : isJSONSpace c = false) :
    skipSpace (c :: rest) = c :: rest := by
  simp [skipSpace, hc]

theorem skipSpace_spaces_cons (w rest : GoString) (c : Char) (hw : isSpaces w)
    (hc : isJSONSpace c = false) : skipSpace (w ++ c :: rest) = c :: rest := by
  rw [skipSpace_append w _ hw, skipSpace_cons c rest hc]

theorem skipSpace_spaces (w : GoString) (hw : isSpaces w) : skipSpace w = [] := by
  have h := skipSpace_append w [] hw
  rw [List.append_nil] at h
  rw [h]
  rfl

/-- A string of characters that need no escape is scanned as itself. -/
theorem scanString_plain (key rest : GoString)
    (hk : ∀ c ∈ key, c ≠ '"' ∧ c ≠ '\\' ∧ ¬ c.toNat < 32) :
    scanString (key ++ '"' :: rest) = some (key.map StrUnit.chr, rest) := by
  induction key with
  | nil =>
    rw [List.nil_append, scanString.eq_def]
    simp
  | cons c cs ih =>
    obtain ⟨h1, h2, h3⟩ := hk c (List.mem_cons_self _ _)
    have hcs := ih (fun d hd => hk d (List.mem_cons_of_mem _ hd))
    rw [List.cons_append, scanString.eq_def]
    simp [h1, h2, h3, hcs]

theorem unquote_plain (key : GoString) : unquote (key.map StrUnit.chr) = key := by
  unfold unquote
  induction key with
  | nil => rfl
  | cons c cs ih => simp [unquoteFrom, ih]

theorem toDigitsCore_isDigit (fuel n : Nat) (acc : List Char)
    (hacc : ∀ c ∈ acc, c.isDigit = true) :
    ∀ c ∈ Nat.toDigitsCore 10 fuel n acc, c.isDigit = true := by
  induction fuel generalizing n acc with
  | zero => simpa [Nat.toDigitsCore] using hacc
  | succ fuel ih =>
    have hd := (digitChar_digit (n % 10) (Nat.mod_lt n (by decide))).1
    have hacc1 : ∀ c ∈ Nat.digitChar (n % 10) :: acc, c.isDigit = true := by
      intro c hc
      rcases List.mem_cons.1 hc with rfl | hc
      · exact hd
      · exact hacc c hc
    simp only [Nat.toDigitsCore]
    by_cases hq : n / 10 = 0
    · simpa [hq] using hacc1
    · simp only [hq, if_false]
      exact ih (n / 10) _ hacc1

theorem toDigits_isDigit (n : Nat) : ∀ c ∈ Nat.toDigits 10 n, c.isDigit = true :=
  toDigitsCore_isDigit _ _ [] (by simp)

theorem digitChar_ne_zero : ∀ d, d < 10 → 0 < d → Nat.digitChar d ≠ '0' := by
  decide

theorem toDigitsCore_head (fuel n : Nat) (hn : 0 < n) (hf : n < fuel) :
    ∃ c t, Nat.toDigitsCore 10 fuel n [] = c :: t ∧ c ≠ '0' := by
  induction fuel generalizing n with
  | zero => omega
  | succ fuel ih =>
    simp only [Nat.toDigitsCore]
    by_cases hq : n / 10 = 0
    · have hn10 : n % 10 = n := by omega
      simp only [hq, if_true]
      exact ⟨_, [], rfl, digitChar_ne_zero _ (Nat.mod_lt n (by decide)) (by omega)⟩
    · simp only [hq, if_false]
      obtain ⟨c, t, hct, hc⟩ := ih (n / 10) (by omega) (by omega)
      rw [toDigitsCore_append, hct]
      exact ⟨c, t ++ [Nat.digitChar (n % 10)], rfl, hc⟩

theorem toDigits_cases (n : Nat) :
    Nat.toDigits 10 n = ['0'] ∨ ∃ c t, Nat.toDigits 10 n = c :: t ∧ c ≠ '0' := by
  by_cases hn : n = 0
  · left
    subst hn
    rfl
  · right
    exact toDigitsCore_head _ n (by omega) (Nat.lt_succ_self _)

theorem spanDigits_append (ds : GoString) (t : Char) (r : GoString)
    (hd : ∀ c ∈ ds, c.isDigit = true) (ht : t.isDigit = false) :
    spanDigits (ds ++ t :: r) = (ds, t :: r) := by
  induction ds with
  | nil => simp [spanDigits, ht]
  | cons c cs ih =>
    have hc := hd c (List.mem_cons_self _ _)
    have hcs := ih (fun d hdd => hd d (List.mem_cons_of_mem _ hdd))
    simp [spanDigits, hc, hcs]

theorem scanInt_toDigits (n : Nat) (t : Char) (r : GoString) (ht : t.isDigit = false) :
    scanInt (Nat.toDigits 10 n ++ t :: r) = some (Nat.toDigits 10 n, t :: r) := by
  rcases toDigits_cases n with h | ⟨c, u, h, hc⟩
  · rw [h]
    simp [scanInt]
  · have hd := toDigits_isDigit n
    have hsp := spanDigits_append (Nat.toDigits 10 n) t r hd ht
    rw [h] at hd hsp ⊢
    have hcd : c.isDigit = true := hd c (List.mem_cons_self _ _)
    rw [List.cons_append] at hsp ⊢
    simp [scanInt, hc, hcd, hsp]

/-- The decimal rendering of an integer, followed by a text that cannot
continue a number, is scanned as one number literal. -/
theorem scanNumber_Itoa (i : Int) (rest : GoString) (hrest : endsNumber rest) :
    scanNumber (Itoa i ++ rest) = some (Itoa i, rest) := by
  obtain ⟨t, r, rfl, ht, h1, h2, h3⟩ := hrest
  have hint := scanInt_toDigits i.natAbs t r ht
  have hfrac : scanFrac (t :: r) = some ([], t :: r) := by simp [scanFrac, h1]
  have hexp : scanExp (t :: r) = some ([], t :: r) := by simp [scanExp, h2, h3]
  by_cases hneg : i < 0
  · simp [Itoa, hneg, scanNumber, hint, hfrac, hexp]
  · simp only [Itoa, hneg, if_false]
    rcases toDigits_cases i.natAbs with h | ⟨c, u, h, hc⟩
    · rw [h] at hint ⊢
      rw [List.cons_append, List.nil_append] at hint ⊢
      simp [scanNumber, hint, hfrac, hexp]
    · have hcd : c.isDigit = true := by
        have := toDigits_isDigit i.natAbs c
        rw [h] at this
        exact this (List.mem_cons_self _ _)
      have hminus : c ≠ '-' := by
        intro hm
        rw [hm] at hcd
        exact absurd hcd (by decide)
      rw [h] at hint ⊢
      rw [List.cons_append] at hint ⊢
      simp [scanNumber, hminus, hint, hfrac, hexp]

/-- The decimal rendering of a Go `int` parses as that integer. -/
theorem ParseInt_Itoa_int64 (i : Int) (hi : isInt64 i) : ParseInt (Itoa i) = some i := by
  obtain ⟨hlo, hhi⟩ := hi
  by_cases hpos : 0 < i
  · exact ParseInt_Itoa i hpos hhi
  · by_cases hzero : i = 0
    · subst hzero
      decide
    · have hneg : i < 0 := by omega
      have hv := digitsValue_toDigitsCore (i.natAbs + 1) i.natAbs (Nat.lt_succ_self _)
      have hne := toDigits_ne_nil i.natAbs
      have hle : i.natAbs ≤ 9223372036854775808 := by omega
      have hback : -(i.natAbs : Int) = i := by omega
      unfold Nat.toDigits at hne
      simp [Itoa, hneg, ParseInt, Nat.toDigits, hne, hv, hle]
      have habs := abs_of_neg hneg
      omega

theorem Itoa_head (i : Int) : ∃ c t, Itoa i = c :: t ∧ (c = '-' ∨ c.isDigit = true) := by
  by_cases hneg : i < 0
  · exact ⟨'-', Nat.toDigits 10 i.natAbs, by simp [Itoa, hneg], Or.inl rfl⟩
  · rcases toDigits_cases i.natAbs with h | ⟨c, u, h, _⟩
    · exact ⟨'0', [], by simp [Itoa, hneg, h], Or.inr (by decide)⟩
    · refine ⟨c, u, by simp [Itoa, hneg, h], Or.inr ?_⟩
      have := toDigits_isDigit i.natAbs c
      rw [h] at this
      exact this (List.mem_cons_self _ _)

theorem endsNumber_spaces (w rest : GoString) (x : Char) (hw : isSpaces w)
    (hx : x = ',' ∨ x = '}') : endsNumber (w ++ x :: rest) := by
  cases w with
  | nil =>
    refine ⟨x, rest, rfl, ?_⟩
    rcases hx with rfl | rfl <;> decide
  | cons c cs =>
    refine ⟨c, cs ++ x :: rest, rfl, ?_⟩
    rcases hw c (List.mem_cons_self _ _) with rfl | rfl | rfl | rfl <;> decide

/-- A number in decimal, after any whitespace and before a text that cannot
continue it, is parsed as that number literal at every depth. -/
theorem parseValue_number (depth : Nat) (w : GoString) (i : Int) (rest : GoString)
    (hw : isSpaces w) (hrest : endsNumber rest) :
    parseValue depth (w ++ (Itoa i ++ rest)) = some (JSON.num (Itoa i), rest) := by
  have hscan := scanNumber_Itoa i rest hrest
  obtain ⟨c, t, hct, hc⟩ := Itoa_head i
  rw [hct] at hscan ⊢
  rw [List.cons_append] at hscan ⊢
  have hfacts : isJSONSpace c = false ∧ c ≠ '{' ∧ c ≠ '[' ∧ c ≠ '"' ∧ c ≠ 't' ∧ c ≠ 'f' ∧
      c ≠ 'n' := by
    rcases hc with rfl | hc
    · decide
    · refine ⟨?_, ?_, ?_, ?_, ?_, ?_, ?_⟩
      · cases hs : isJSONSpace c with
        | false => rfl
        | true =>
          simp only [isJSONSpace, Bool.or_eq_true, decide_eq_true_eq] at hs
          rcases hs with ((rfl | rfl) | rfl) | rfl <;> exact absurd hc (by decide)
      all_goals
        intro h
        rw [h] at hc
        exact absurd hc (by decide)
  obtain ⟨hsp, h1, h2, h3, h4, h5, h6⟩ := hfacts
  have hskip := skipSpace_spaces_cons w (t ++ rest) c hw hsp
  cases depth with
  | zero => simp [parseValue, hskip, h1, h2, parseScalar, h3, h4, h5, h6, hscan]
  | succ d => simp [parseValue, hskip, h1, h2, parseScalar, h3, h4, h5, h6, hscan]

/-- The member `"key": value` followed by `x`, a comma or a closing brace:
the parser reads the key and the number and stops before `x`. -/
theorem member_parts (d : Nat) (sp : Spacing) (key : GoString) (v : Int) (x : Char)
    (rest : GoString) (hsp : sp.ok) (hx : x = ',' ∨ x = '}')
    (hkey : ∀ c ∈ key, c ≠ '"' ∧ c ≠ '\\' ∧ ¬ c.toNat < 32) :
    memberText sp key v ++ x :: rest =
      sp.beforeKey ++ '"' :: (key ++ '"' :: (sp.afterKey ++ ':' ::
        (sp.afterColon ++ (Itoa v ++ (sp.afterValue ++ x :: rest))))) ∧
    skipSpace (sp.beforeKey ++ '"' :: (key ++ '"' :: (sp.afterKey ++ ':' ::
        (sp.afterColon ++ (Itoa v ++ (sp.afterValue ++ x :: rest))))))
      = '"' :: (key ++ '"' :: (sp.afterKey ++ ':' ::
        (sp.afterColon ++ (Itoa v ++ (sp.afterValue ++ x :: rest))))) ∧
    scanString (key ++ '"' :: (sp.afterKey ++ ':' ::
        (sp.afterColon ++ (Itoa v ++ (sp.afterValue ++ x :: rest)))))
      = some (key.map StrUnit.chr, sp.afterKey ++ ':' ::
        (sp.afterColon ++ (Itoa v ++ (sp.afterValue ++ x :: rest)))) ∧
    skipSpace (sp.afterKey ++ ':' ::
        (sp.afterColon ++ (Itoa v ++ (sp.afterValue ++ x :: rest))))
      = ':' :: (sp.afterColon ++ (Itoa v ++ (sp.afterValue ++ x :: rest))) ∧
    parseValue d (sp.afterColon ++ (Itoa v ++ (sp.afterValue ++ x :: rest)))
      = some (JSON.num (Itoa v), sp.afterValue ++ x :: rest) ∧
    skipSpace (sp.afterValue ++ x :: rest) = x :: rest := by
  obtain ⟨h1, h2, h3, h4⟩ := hsp
  have hxs : isJSONSpace x = false := by
    rcases hx with rfl | rfl <;> decide
  refine ⟨by simp [memberText], skipSpace_spaces_cons _ _ _ h1 (by decide),
    scanString_plain _ _ hkey, skipSpace_spaces_cons _ _ _ h2 (by decide),
    parseValue_number d _ v _ h3 (endsNumber_spaces _ _ x h4 hx),
    skipSpace_spaces_cons _ _ _ h4 hxs⟩

theorem parseMembers_last (d fuel : Nat) (sp : Spacing) (key : GoString) (v : Int)
    (rest : GoString) (hsp : sp.ok)
    (hkey : ∀ c ∈ key, c ≠ '"' ∧ c ≠ '\\' ∧ ¬ c.toNat < 32) :
    parseMembers (parseValue d) (fuel + 1) (memberText sp key v ++ '}' :: rest) =
      some ([(key, JSON.num (Itoa v))], rest) := by
  obtain ⟨h0, h1, h2, h3, h4, h5⟩ := member_parts d sp key v '}' rest hsp (Or.inr rfl) hkey
  rw [h0, parseMembers]
  simp [h1, h2, h3, h4, h5, unquote_plain]

theorem parseMembers_comma (d fuel : Nat) (sp : Spacing) (key : GoString) (v : Int)
    (rest : GoString) (ms : List (GoString × JSON)) (out : GoString) (hsp : sp.ok)
    (hkey : ∀ c ∈ key, c ≠ '"' ∧ c ≠ '\\' ∧ ¬ c.toNat < 32)
    (hrest : parseMembers (parseValue d) fuel rest = some (ms, out)) :
    parseMembers (parseValue d) (fuel + 1) (memberText sp key v ++ ',' :: rest) =
      some ((key, JSON.num (Itoa v)) :: ms, out) := by
  obtain ⟨h0, h1, h2, h3, h4, h5⟩ := member_parts d sp key v ',' rest hsp (Or.inl rfl) hkey
  rw [h0, parseMembers]
  simp [h1, h2, h3, h4, h5, unquote_plain, hrest]

/-- An object of two integer members, after any whitespace, is parsed as the
object of its two number literals, and the text after the closing brace is
left. -/
theorem parseValue_object (d : Nat) (a : GoString) (s1 s2 : Spacing) (k1 k2 : GoString)
    (v1 v2 : Int) (rest : GoString) (ha : isSpaces a) (h1 : s1.ok) (h2 : s2.ok)
    (hk1 : ∀ c ∈ k1, c ≠ '"' ∧ c ≠ '\\' ∧ ¬ c.toNat < 32)
    (hk2 : ∀ c ∈ k2, c ≠ '"' ∧ c ≠ '\\' ∧ ¬ c.toNat < 32) :
    parseValue (d + 1)
        (a ++ '{' :: (memberText s1 k1 v1 ++ ',' :: (memberText s2 k2 v2 ++ '}' :: rest))) =
      some (JSON.obj [(k1, JSON.num (Itoa v1)), (k2, JSON.num (Itoa v2))], rest) := by
  have hskip := skipSpace_spaces_cons a
    (memberText s1 k1 v1 ++ ',' :: (memberText s2 k2 v2 ++ '}' :: rest)) '{' ha (by decide)
  have hparts := member_parts d s1 k1 v1 ','
    (memberText s2 k2 v2 ++ '}' :: rest) h1 (Or.inl rfl) hk1
  have hfirst : skipSpace (memberText s1 k1 v1 ++ ',' :: (memberText s2 k2 v2 ++ '}' :: rest))
      = '"' :: (k1 ++ '"' :: (s1.afterKey ++ ':' :: (s1.afterColon ++ (Itoa v1 ++
          (s1.afterValue ++ ',' :: (memberText s2 k2 v2 ++ '}' :: rest)))))) := by
    rw [hparts.1, hparts.2.1]
  obtain ⟨n, hn⟩ : ∃ n,
      (memberText s1 k1 v1 ++ ',' :: (memberText s2 k2 v2 ++ '}' :: rest)).length = n + 2 := by
    refine ⟨(memberText s1 k1 v1 ++ ',' :: (memberText s2 k2 v2 ++ '}' :: rest)).length - 2, ?_⟩
    simp only [List.length_append, List.length_cons]
    omega
  have hmem := parseMembers_comma d (n + 1) s1 k1 v1 (memberText s2 k2 v2 ++ '}' :: rest)
    _ _ h1 hk1 (parseMembers_last d n s2 k2 v2 rest h2 hk2)
  rw [parseValue]
  simp [hskip, hfirst, hn, hmem]

theorem plain_External :
    ∀ c ∈ "External".toList, c ≠ '"' ∧ c ≠ '\\' ∧ ¬ c.toNat < 32 := by
  decide

theorem plain_Internal :
    ∀ c ∈ "Internal".toList, c ≠ '"' ∧ c ≠ '\\' ∧ ¬ c.toNat < 32 := by
  decide

/-- The text of one mapping is parsed, at any depth that allows an object, as
the object of that mapping; its trailing whitespace is left. -/
theorem parseValue_portMapText (el : GoString) (m : PortMap) (h : isPortMapText el m) :
    ∃ v z, isSpaces z ∧ isPortMapObject v m ∧
      (∀ d rest, parseValue (d + 1) (el ++ rest) = some (v, z ++ rest)) ∧
      (∀ rest, ∃ y, skipSpace (el ++ rest) = '{' :: y) := by
  obtain ⟨hE, hI, a, z, s1, s2, ha, hz, h1, h2, hel⟩ := h
  have pE := ParseInt_Itoa_int64 m.External hE
  have pI := ParseInt_Itoa_int64 m.Internal hI
  rcases hel with rfl | rfl
  · refine ⟨JSON.obj [("External".toList, JSON.num (Itoa m.External)),
        ("Internal".toList, JSON.num (Itoa m.Internal))], z, hz,
      ⟨_, _, Or.inl rfl, pE, pI⟩, fun d rest => ?_, fun rest => ?_⟩
    · have := parseValue_object d a s1 s2 "External".toList "Internal".toList
        m.External m.Internal (z ++ rest) ha h1 h2 plain_External plain_Internal
      simpa [List.append_assoc] using this
    · simp only [List.append_assoc, List.cons_append]
      exact ⟨_, skipSpace_spaces_cons a _ '{' ha (by decide)⟩
  · refine ⟨JSON.obj [("Internal".toList, JSON.num (Itoa m.Internal)),
        ("External".toList, JSON.num (Itoa m.External))], z, hz,
      ⟨_, _, Or.inr rfl, pE, pI⟩, fun d rest => ?_, fun rest => ?_⟩
    · have := parseValue_object d a s1 s2 "Internal".toList "External".toList
        m.Internal m.External (z ++ rest) ha h1 h2 plain_Internal plain_External
      simpa [List.append_assoc] using this
    · simp only [List.append_assoc, List.cons_append]
      exact ⟨_, skipSpace_spaces_cons a _ '{' ha (by decide)⟩

theorem intercalate_cons_cons (sep el e2 : GoString) (els : List GoString) :
    sep.intercalate (el :: e2 :: els) = el ++ (sep ++ sep.intercalate (e2 :: els)) := by
  simp [List.intercalate, List.intersperse]

theorem length_le_intercalate (els : List GoString) :
    els.length ≤ ([','].intercalate els).length + 1 := by
  induction els with
  | nil => simp
  | cons el els ih =>
    cases els with
    | nil => simp
    | cons e2 rest =>
      rw [intercalate_cons_cons]
      simp only [List.length_append, List.length_cons, List.length_nil] at ih ⊢
      omega

/-- The texts of one or more mappings, separated by commas and closed by a
bracket, are parsed as the list of their objects when the fuel is at least
their number. -/
theorem parseElems_portMapTexts (d : Nat) (els : List GoString) (ms : List PortMap)
    (h : List.Forall₂ isPortMapText els ms) (hne : els ≠ []) :
    ∃ vs, List.Forall₂ isPortMapObject vs ms ∧
      ∀ fuel z, els.length ≤ fuel →
        parseElems (parseValue (d + 1)) fuel ([','].intercalate els ++ ']' :: z) =
          some (vs, z) := by
  induction h with
  | nil => exact absurd rfl hne
  | @cons el m els1 ms1 hel hrest ih =>
    obtain ⟨v, zz, hzz, hv, hparse, _⟩ := parseValue_portMapText el m hel
    cases els1 with
    | nil =>
      cases hrest
      refine ⟨[v], List.Forall₂.cons hv List.Forall₂.nil, fun fuel z hf => ?_⟩
      obtain ⟨f, rfl⟩ : ∃ f, fuel = f + 1 := ⟨fuel - 1, by simp at hf; omega⟩
      have hp := hparse d (']' :: z)
      have hs := skipSpace_spaces_cons zz z ']' hzz (by decide)
      have hi : [','].intercalate [el] = el := by simp [List.intercalate]
      rw [hi, parseElems]
      simp [hp, hs]
    | cons e2 rest =>
      obtain ⟨vs, hvs, hall⟩ := ih (by simp)
      refine ⟨v :: vs, List.Forall₂.cons hv hvs, fun fuel z hf => ?_⟩
      obtain ⟨f, rfl⟩ : ∃ f, fuel = f + 1 := ⟨fuel - 1, by simp at hf; omega⟩
      have hf1 : (e2 :: rest).length ≤ f := by
        simp only [List.length_cons] at hf ⊢
        omega
      have hp := hparse d (',' :: ([','].intercalate (e2 :: rest) ++ ']' :: z))
      have hs := skipSpace_spaces_cons zz ([','].intercalate (e2 :: rest) ++ ']' :: z) ','
        hzz (by decide)
      have htail := hall f z hf1
      rw [intercalate_cons_cons, parseElems]
      simp only [List.append_assoc, List.cons_append, List.nil_append]
      simp [hp, hs, htail]

/-- A well-formed text of one or more mappings is valid JSON: it parses as
the array of the objects of its mappings. -/
theorem parseJSON_wellFormedPorts (cf : GoString) (ms : List PortMap)
    (hwf : wellFormedPorts cf ms) (hN : 1 ≤ ms.length) :
    ∃ vs, parseJSON cf = some (JSON.arr vs) ∧ List.Forall₂ isPortMapObject vs ms := by
  obtain ⟨a, z, els, ha, hz, hels, rfl⟩ := hwf
  have hne : els ≠ [] := by
    intro hnil
    subst hnil
    cases hels
    simp at hN
  obtain ⟨vs, hvs, hall⟩ := parseElems_portMapTexts 9998 els ms hels hne
  refine ⟨vs, ?_, hvs⟩
  have hskip := skipSpace_spaces_cons a ([','].intercalate els ++ ']' :: z) '[' ha (by decide)
  obtain ⟨y, hy⟩ : ∃ y, skipSpace ([','].intercalate els ++ ']' :: z) = '{' :: y := by
    cases hels with
    | nil => exact absurd rfl hne
    | @cons el m els1 ms1 hel hrest =>
      obtain ⟨_, _, _, _, _, hhead⟩ := parseValue_portMapText el m hel
      cases els1 with
      | nil =>
        have hi : [','].intercalate [el] = el := by simp [List.intercalate]
        rw [hi]
        exact hhead _
      | cons e2 rest =>
        rw [intercalate_cons_cons]
        simp only [List.append_assoc]
        exact hhead _
  have hfuel : els.length ≤ ([','].intercalate els).length + (z.length + 1) := by
    have := length_le_intercalate els
    omega
  have helems : parseElems (parseValue 9999)
      (([','].intercalate els).length + (z.length + 1))
      ([','].intercalate els ++ ']' :: z) = some (vs, z) := hall _ z hfuel
  have hdepth : maxNestingDepth = 9999 + 1 := rfl
  have hz0 := skipSpace_spaces z hz
  unfold parseJSON
  rw [hdepth, parseValue]
  simp [hskip, hy, helems, hz0]

/-- C1: for every value of CF_INSTANCE_PORTS that is a well-formed JSON array
of N >= 1 objects with an integer External and an integer Internal (the two
members in either order, any JSON whitespace between the parts), and for
every value of the --ports flag and of PORT, getServerPorts returns exactly N
strings, the i-th being the decimal rendering of the i-th mapping's Internal
port, in the array's order with duplicates preserved; the flag and PORT have
no influence. -/
theorem getServerPorts_of_wellFormedPorts (cf flag port : GoString) (ms : List PortMap)
    (hwf : wellFormedPorts cf ms) (hN : 1 ≤ ms.length) :
    getServerPorts cf flag port = ms.map (fun m => Itoa m.Internal) ∧
    (getServerPorts cf flag port).length = ms.length ∧
    ∀ i (hi : i < ms.length),
      (getServerPorts cf flag port).get? i = some (Itoa (ms.get ⟨i, hi⟩).Internal) := by
  obtain ⟨vs, hparse, hall⟩ := parseJSON_wellFormedPorts cf ms hwf hN
  have hcf : getCfInstancePorts cf = ms.map (fun m => Itoa m.Internal) := by
    rw [getCfInstancePorts_of_array cf vs hparse, ← map_decodePortMap_of_forall₂ vs ms hall]
    simp [List.map_map, Function.comp]
  have hne : getCfInstancePorts cf ≠ [] := by
    rw [hcf]
    cases ms with
    | nil => simp at hN
    | cons m ms1 => simp
  have hres := getServerPorts_of_mappings cf flag port hne
  rw [hres, hcf]
  refine ⟨rfl, by simp, ?_⟩
  intro i hi
  simp [List.get?_eq_get, hi]

theorem getServerPorts_of_wellFormedPorts_witness :
    getServerPorts
        "[\x7b\"External\":80,\"Internal\":8080\x7d,\x7b\"External\":81,\"Internal\":9090\x7d]".toList
        "3000".toList "5000".toList
      = ["8080".toList, "9090".toList] ∧
    getServerPorts
        " [\x7b \"External\" : 80,\n\t\"Internal\": 8080 \x7d , \x7b\"Internal\":8080,\"External\":-1\x7d]\r\n".toList
        "3000".toList "5000".toList
      = ["8080".toList, "8080".toList] := by
  have int80 : isInt64 80 := by unfold isInt64; decide
  have int81 : isInt64 81 := by unfold isInt64; decide
  have intm1 : isInt64 (-1) := by unfold isInt64; decide
  have int8080 : isInt64 8080 := by unfold isInt64; decide
  have int9090 : isInt64 9090 := by unfold isInt64; decide
  have none4 : (⟨[], [], [], []⟩ : Spacing).ok := by simp [Spacing.ok, isSpaces]
  have sp1 : (⟨" ".toList, " ".toList, " ".toList, []⟩ : Spacing).ok := by
    simp [Spacing.ok, isSpaces]
  have sp2 : (⟨"\n\t".toList, [], " ".toList, " ".toList⟩ : Spacing).ok := by
    simp [Spacing.ok, isSpaces]
  have h1 := getServerPorts_of_wellFormedPorts
    "[\x7b\"External\":80,\"Internal\":8080\x7d,\x7b\"External\":81,\"Internal\":9090\x7d]".toList
    "3000".toList "5000".toList [⟨80, 8080⟩, ⟨81, 9090⟩]
    ⟨[], [], _, by simp [isSpaces], by simp [isSpaces],
      List.Forall₂.cons
        ⟨int80, int8080, [], [], ⟨[], [], [], []⟩, ⟨[], [], [], []⟩,
          by simp [isSpaces], by simp [isSpaces], none4, none4, Or.inl rfl⟩
        (List.Forall₂.cons
          ⟨int81, int9090, [], [], ⟨[], [], [], []⟩, ⟨[], [], [], []⟩,
            by simp [isSpaces], by simp [isSpaces], none4, none4, Or.inl rfl⟩
          List.Forall₂.nil),
      by decide⟩
    (by decide)
  have h2 := getServerPorts_of_wellFormedPorts
    " [\x7b \"External\" : 80,\n\t\"Internal\": 8080 \x7d , \x7b\"Internal\":8080,\"External\":-1\x7d]\r\n".toList
    "3000".toList "5000".toList [⟨80, 8080⟩, ⟨-1, 8080⟩]
    ⟨" ".toList, "\r\n".toList, _, by simp [isSpaces], by simp [isSpaces],
      List.Forall₂.cons
        ⟨int80, int8080, [], " ".toList, ⟨" ".toList, " ".toList, " ".toList, []⟩,
          ⟨"\n\t".toList, [], " ".toList, " ".toList⟩,
          by simp [isSpaces], by simp [isSpaces], sp1, sp2, Or.inl rfl⟩
        (List.Forall₂.cons
          ⟨intm1, int8080, " ".toList, [], ⟨[], [], [], []⟩, ⟨[], [], [], []⟩,
            by simp [isSpaces], by simp [isSpaces], none4, none4, Or.inr rfl⟩
          List.Forall₂.nil),
      by decide⟩
    (by decide)
  exact ⟨h1.1.trans (by decide), h2.1.trans (by decide)⟩

/-! ## Texts that are no array -/

theorem parseScalar_ne_arr (c : Char) (rest : GoString) (v : JSON) (out : GoString)
    (h : parseScalar c rest = some (v, out)) : ∀ vs, v ≠ JSON.arr vs := by
  intro vs hv
  subst hv
  unfold parseScalar at h
  split_ifs at h
  · split at h
    · cases h
    · cases h
  · simp at h
  · simp at h
  · simp at h
  · split at h
    · cases h
    · cases h

/-- A text that parses as an array starts, after its whitespace, with an
opening bracket. -/
theorem parseValue_arr_head (d : Nat) (s out : GoString) (vs : List JSON)
    (h : parseValue d s = some (JSON.arr vs, out)) : ∃ y, skipSpace s = '[' :: y := by
  cases d with
  | zero =>
    unfold parseValue at h
    split at h
    · cases h
    · rename_i c rest hs
      split_ifs at h
      exact absurd rfl (parseScalar_ne_arr c rest _ _ h vs)
  | succ d =>
    unfold parseValue at h
    split at h
    · cases h
    · rename_i c rest hs
      split_ifs at h with h1 h2
      · split at h
        · cases h
        · split_ifs at h
          · cases h
          · split at h
            · cases h
            · cases h
      · exact ⟨rest, by rw [hs, h2]⟩
      · exact absurd rfl (parseScalar_ne_arr c rest _ _ h vs)

/-- A value whose first character after the whitespace is not an opening
bracket, or that is only whitespace, decodes to no mapping. -/
theorem getCfInstancePorts_of_no_bracket (cf : GoString)
    (h : isSpaces cf ∨ ∃ w c r, cf = w ++ c :: r ∧ isSpaces w ∧ c ≠ '[' ∧
      ¬ (c = ' ' ∨ c = '\t' ∨ c = '\r' ∨ c = '\n')) :
    getCfInstancePorts cf = [] := by
  apply getCfInstancePorts_of_no_array
  cases hp : parseJSON cf with
  | none => exact Or.inl rfl
  | some v =>
    refine Or.inr ⟨v, rfl, fun e es hv => ?_⟩
    subst hv
    unfold parseJSON at hp
    split at hp
    · rename_i v1 rest hv1
      split_ifs at hp
      cases hp
      obtain ⟨y, hy⟩ := parseValue_arr_head _ _ _ _ hv1
      rcases h with h | ⟨w, c, r, rfl, hw, hc, hsp⟩
      · rw [skipSpace_spaces cf h] at hy
        cases hy
      · have hns : isJSONSpace c = false := by
          cases hs : isJSONSpace c with
          | false => rfl
          | true =>
            simp only [isJSONSpace, Bool.or_eq_true, decide_eq_true_eq] at hs
            exact absurd (by tauto) hsp
        rw [skipSpace_spaces_cons w r c hw hns] at hy
        exact hc (List.cons.inj hy).1
    · cases hp

/-- C2, amended: for every value of CF_INSTANCE_PORTS that is not
syntactically valid JSON (e.g. "not-json") or whose JSON value is not a
non-empty array, and for every --ports flag and PORT value, getServerPorts
returns exactly what it returns when CF_INSTANCE_PORTS is unset with the same
flag and PORT; every value that is only whitespace or whose first character
after the whitespace is not an opening bracket is such a value. A value that
is a syntactically valid non-empty JSON array is not a fallback, even when
json.Unmarshal returns an error for it: getServerPorts then returns one port
per array element. -/
theorem getServerPorts_decode_fallback (cf flag port : GoString) :
    ((parseJSON cf = none ∨ ∃ v, parseJSON cf = some v ∧ ∀ e es, v ≠ JSON.arr (e :: es)) →
      getServerPorts cf flag port = getServerPorts [] flag port) ∧
    ((isSpaces cf ∨ ∃ w c r, cf = w ++ c :: r ∧ isSpaces w ∧ c ≠ '[' ∧
        ¬ (c = ' ' ∨ c = '\t' ∨ c = '\r' ∨ c = '\n')) →
      getServerPorts cf flag port = getServerPorts [] flag port) ∧
    (∀ e es, parseJSON cf = some (JSON.arr (e :: es)) →
      (getServerPorts cf flag port).length = (e :: es).length) := by
  refine ⟨fun h => ?_, fun h => ?_, fun e es h => ?_⟩
  · rw [getServerPorts_of_no_mappings cf flag port (getCfInstancePorts_of_no_array cf h),
      getServerPorts_of_no_mappings [] flag port getCfInstancePorts_unset]
  · rw [getServerPorts_of_no_mappings cf flag port (getCfInstancePorts_of_no_bracket cf h),
      getServerPorts_of_no_mappings [] flag port getCfInstancePorts_unset]
  · have hcf := getCfInstancePorts_of_array cf (e :: es) h
    rw [getServerPorts_of_mappings cf flag port (by rw [hcf]; simp), hcf]
    simp

theorem getServerPorts_decode_fallback_witness :
    getServerPorts "not-json".toList "3000".toList "5000".toList
      = getServerPorts [] "3000".toList "5000".toList ∧
    getServerPorts " \x7b\"Internal\":8080\x7d".toList "3000".toList "5000".toList
      = getServerPorts [] "3000".toList "5000".toList ∧
    getServerPorts "[8080".toList "3000".toList "5000".toList
      = getServerPorts [] "3000".toList "5000".toList ∧
    (getServerPorts "[\x7b\"Internal\":\"8080\"\x7d, 7]".toList "3000".toList
      "5000".toList).length = 2 :=
  ⟨(getServerPorts_decode_fallback "not-json".toList "3000".toList "5000".toList).2.1
      (Or.inr ⟨[], 'n', "ot-json".toList, rfl, by simp [isSpaces], by decide, by decide⟩),
    (getServerPorts_decode_fallback " \x7b\"Internal\":8080\x7d".toList "3000".toList
      "5000".toList).2.1
      (Or.inr ⟨[' '], '\x7b', "\"Internal\":8080\x7d".toList, rfl, by simp [isSpaces],
        by decide, by decide⟩),
    (getServerPorts_decode_fallback "[8080".toList "3000".toList "5000".toList).1
      (Or.inl rfl),
    (getServerPorts_decode_fallback "[\x7b\"Internal\":\"8080\"\x7d, 7]".toList
      "3000".toList "5000".toList).2.2 _ _ rfl⟩

end LatticeApp
